import Mathlib

/-!
Verification of the stamp-comparison repository.

Part 1: the pixel comparison engine (`compareCanvases`, `getImageDataStats`,
`hasContent` from the canvas-comparison utility module).

Part 2: the stamp capture component (`StampCanvas`): the convex hull
routine, the contact-area rasterization, and the gesture state machine.

Conventions of the embedding:
* Pixel channel values (`Uint8ClampedArray` entries) are natural numbers;
  an `ImageData` is its width, height and flat RGBA data list.
* Fractional quantities (similarity, tolerance, matching-pixel count,
  coordinates) are rationals; the JavaScript source computes with floats,
  and all values reached by the claims are exactly representable.
* The source compares `Math.sqrt(s) / Math.sqrt(3 * 255 ** 2) <= bound`.
  To keep the embedding executable we encode that comparison by the
  equivalent `0 ≤ bound ∧ s ≤ bound ^ 2 * (3 * 255 ^ 2)` (`sqrtQuotLe`);
  the equivalence with the real square-root form is proved in
  `sqrtQuotLe_iff_sqrt` and used to state the pixel-classification claim
  in its original square-root formulation.
-/

namespace Stamp

/-- An `ImageData`: width, height, and the flat RGBA byte array
(4 consecutive entries per pixel, as in the canvas API). -/
structure ImageData where
  width : ℕ
  height : ℕ
  data : List ℕ
deriving DecidableEq

/-- The `ComparisonResult` record returned by `compareCanvases`.
The `similarity` field is the percentage (the spec calls it
`similarityPercent`). -/
structure ComparisonResult where
  similarity : ℚ
  isMatch : Bool
  tolerance : ℚ
  totalPixels : ℕ
  matchingPixels : ℚ
deriving DecidableEq

/-- Decidable rendering of `Math.sqrt s / Math.sqrt c ≤ b` for `0 ≤ s`,
`0 < c` (see `sqrtQuotLe_iff_sqrt`). -/
def sqrtQuotLe (s c b : ℚ) : Prop := 0 ≤ b ∧ s ≤ b ^ 2 * c

instance (s c b : ℚ) : Decidable (sqrtQuotLe s c b) :=
  inferInstanceAs (Decidable (_ ∧ _))

/-- Per-pixel contribution to `matchingPixels` in the loop body of
`compareCanvases`: 1 for two transparent pixels, 1 or 0 for two content
pixels depending on the color/alpha thresholds, 1/2 when exactly one
pixel has content.  `colorDiffSq` is the square of the numerator of the
source's `colorDiff`; the comparison `colorDiff <= tolerance * 2` is
encoded by `sqrtQuotLe colorDiffSq (3 * 255 ^ 2) (tolerance * 2)`. -/
def pixelScore (tolerance : ℚ) (r1 g1 b1 a1 r2 g2 b2 a2 : ℕ) : ℚ :=
  let colorDiffSq : ℚ := ((r1 : ℚ) - r2) ^ 2 + ((g1 : ℚ) - g2) ^ 2 + ((b1 : ℚ) - b2) ^ 2
  let alphaDiff : ℚ := |(a1 : ℚ) - a2| / 255
  let hasContent1 : Prop := 0 < a1
  let hasContent2 : Prop := 0 < a2
  if ¬hasContent1 ∧ ¬hasContent2 then 1
  else if hasContent1 ∧ hasContent2 then
    if sqrtQuotLe colorDiffSq (3 * 255 ^ 2) (tolerance * 2) ∧ alphaDiff ≤ tolerance * 2 then 1
    else 0
  else if hasContent1 ∨ hasContent2 then 1 / 2
  else 0

/-- The pixel loop of `compareCanvases`: walk both data arrays four
entries at a time, summing the per-pixel scores.  (The JavaScript loop
indexes `data1` in steps of 4; on well-formed `ImageData` of equal
dimensions both arrays have the same length, which is what the chunked
recursion expresses.) -/
def matchLoop (tolerance : ℚ) : List ℕ → List ℕ → ℚ
  | r1 :: g1 :: b1 :: a1 :: rest1, r2 :: g2 :: b2 :: a2 :: rest2 =>
      pixelScore tolerance r1 g1 b1 a1 r2 g2 b2 a2 + matchLoop tolerance rest1 rest2
  | _, _ => 0

/-- `compareCanvases` from the canvas-comparison utility module. -/
def compareCanvases (imageData1 imageData2 : ImageData) (tolerance : ℚ) : ComparisonResult :=
  if imageData1.width ≠ imageData2.width ∨ imageData1.height ≠ imageData2.height then
    { similarity := 0
      isMatch := false
      tolerance := tolerance
      totalPixels := max (imageData1.width * imageData1.height)
        (imageData2.width * imageData2.height)
      matchingPixels := 0 }
  else
    let totalPixels := imageData1.width * imageData1.height
    let matchingPixels := matchLoop tolerance imageData1.data imageData2.data
    let similarity := matchingPixels / (totalPixels : ℚ) * 100
    { similarity := similarity
      isMatch := decide ((1 - tolerance) * 100 ≤ similarity)
      tolerance := tolerance
      totalPixels := totalPixels
      matchingPixels := matchingPixels }

/-- The alpha channel of a flat RGBA array: the loop
`for (i = 3; i < data.length; i += 4)` reads exactly the elements at
indices 3, 7, 11, ... -/
def alphas : List ℕ → List ℕ
  | _ :: _ :: _ :: a :: rest => a :: alphas rest
  | _ => []

/-- Result record of `getImageDataStats`. -/
structure ImageDataStats where
  width : ℕ
  height : ℕ
  totalPixels : ℕ
  nonTransparentPixels : ℕ
  averageAlpha : ℚ
deriving DecidableEq

/-- `getImageDataStats` from the canvas-comparison utility module. -/
def getImageDataStats (imageData : ImageData) : ImageDataStats :=
  let totalPixels := imageData.width * imageData.height
  { width := imageData.width
    height := imageData.height
    totalPixels := totalPixels
    nonTransparentPixels := (alphas imageData.data).countP (fun a => decide (0 < a))
    averageAlpha := ((alphas imageData.data).sum : ℚ) / (totalPixels : ℚ) }

/-- `hasContent` from the canvas-comparison utility module: scans the
alpha channel and reports whether any entry is positive. -/
def hasContent (imageData : ImageData) : Bool :=
  (alphas imageData.data).any (fun a => decide (0 < a))

/-- Well-formedness invariant of an `ImageData` (the canvas API maintains
`data.length = 4 * width * height`). -/
def WF (imageData : ImageData) : Prop :=
  imageData.data.length = 4 * (imageData.width * imageData.height)

instance (imageData : ImageData) : Decidable (WF imageData) :=
  inferInstanceAs (Decidable (_ = _))

end Stamp

/-! ### Basic lemmas about the comparison engine -/

namespace Stamp

theorem pixelScore_comm (t : ℚ) (r1 g1 b1 a1 r2 g2 b2 a2 : ℕ) :
    pixelScore t r1 g1 b1 a1 r2 g2 b2 a2 = pixelScore t r2 g2 b2 a2 r1 g1 b1 a1 := by
  unfold pixelScore
  have hc : ((r1 : ℚ) - r2) ^ 2 + ((g1 : ℚ) - g2) ^ 2 + ((b1 : ℚ) - b2) ^ 2
      = ((r2 : ℚ) - r1) ^ 2 + ((g2 : ℚ) - g1) ^ 2 + ((b2 : ℚ) - b1) ^ 2 := by ring
  have ha : |(a1 : ℚ) - a2| = |(a2 : ℚ) - a1| := abs_sub_comm _ _
  simp only [hc, ha]
  by_cases h1 : 0 < a1 <;> by_cases h2 : 0 < a2 <;> simp [h1, h2, and_comm, or_comm]

theorem matchLoop_eq_zero (t : ℚ) (u v : List ℕ)
    (huv : ∀ (r1 g1 b1 a1 : ℕ) (rest1 : List ℕ) (r2 g2 b2 a2 : ℕ) (rest2 : List ℕ),
      u = r1 :: g1 :: b1 :: a1 :: rest1 → v = r2 :: g2 :: b2 :: a2 :: rest2 → False) :
    matchLoop t u v = 0 := by
  rw [matchLoop.eq_def]
  split
  · rename_i r1 g1 b1 a1 rest1 r2 g2 b2 a2 rest2
    exact (huv r1 g1 b1 a1 rest1 r2 g2 b2 a2 rest2 rfl rfl).elim
  · rfl

theorem matchLoop_comm (t : ℚ) (d1 d2 : List ℕ) :
    matchLoop t d1 d2 = matchLoop t d2 d1 := by
  induction d1, d2 using matchLoop.induct t with
  | case1 r1 g1 b1 a1 rest1 r2 g2 b2 a2 rest2 ih =>
      rw [matchLoop, matchLoop, pixelScore_comm, ih]
  | case2 u v h =>
      rw [matchLoop_eq_zero t u v h,
        matchLoop_eq_zero t v u (fun r1 g1 b1 a1 rest1 r2 g2 b2 a2 rest2 hv hu =>
          h r2 g2 b2 a2 rest2 r1 g1 b1 a1 rest1 hu hv)]

end Stamp

/-- C2: when the two buffers disagree in width or in height,
`compareCanvases` returns similarity 0, no match, zero matching pixels,
the given tolerance, and `totalPixels` equal to the larger of the two
buffer areas, without scanning any pixel data (the result is produced by
the early-return branch alone) and without raising an error. -/
theorem compareCanvases_dimension_mismatch (A B : Stamp.ImageData) (t : ℚ)
    (h : A.width ≠ B.width ∨ A.height ≠ B.height) :
    Stamp.compareCanvases A B t =
      { similarity := 0
        isMatch := false
        tolerance := t
        totalPixels := max (A.width * A.height) (B.width * B.height)
        matchingPixels := 0 } := by
  rw [Stamp.compareCanvases, if_pos h]

/-- Witness for C2 at the spec's own test case: a 10 by 10 and a 20 by 20
buffer give `totalPixels = 400` and a zero-similarity non-match. -/
theorem compareCanvases_dimension_mismatch_witness :
    (((⟨10, 10, []⟩ : Stamp.ImageData).width ≠ (⟨20, 20, []⟩ : Stamp.ImageData).width ∨
        (⟨10, 10, []⟩ : Stamp.ImageData).height ≠ (⟨20, 20, []⟩ : Stamp.ImageData).height) ∧
      Stamp.compareCanvases ⟨10, 10, []⟩ ⟨20, 20, []⟩ (3 / 10) =
        { similarity := 0
          isMatch := false
          tolerance := 3 / 10
          totalPixels := 400
          matchingPixels := 0 }) := by
  refine ⟨Or.inl (by decide), ?_⟩
  have h := compareCanvases_dimension_mismatch ⟨10, 10, []⟩ ⟨20, 20, []⟩ (3 / 10)
    (Or.inl (by decide))
  simpa using h

/-- C5: the comparison is symmetric in its two buffer arguments: for
well-formed buffers (the `ImageData` invariant `data.length = 4 * width *
height`, whether or not the dimensions of the two buffers agree) every
field of the result is unchanged when the buffers are swapped. -/
theorem compareCanvases_symm (A B : Stamp.ImageData) (t : ℚ)
    (_hA : Stamp.WF A) (_hB : Stamp.WF B) :
    Stamp.compareCanvases A B t = Stamp.compareCanvases B A t := by
  by_cases hw : A.width = B.width
  · by_cases hh : A.height = B.height
    · rw [Stamp.compareCanvases, Stamp.compareCanvases, if_neg (by simp [hw, hh]),
        if_neg (by simp [hw, hh])]
      simp only [Stamp.matchLoop_comm t A.data B.data, hw, hh]
    · rw [Stamp.compareCanvases, Stamp.compareCanvases, if_pos (Or.inr hh),
        if_pos (Or.inr fun h => hh h.symm)]
      simp [max_comm]
  · rw [Stamp.compareCanvases, Stamp.compareCanvases, if_pos (Or.inl hw),
      if_pos (Or.inl fun h => hw h.symm)]
    simp [max_comm]

/-- Witness for C5 at a concrete pair of well-formed 1 by 1 buffers. -/
theorem compareCanvases_symm_witness :
    Stamp.WF ⟨1, 1, [1, 2, 3, 4]⟩ ∧ Stamp.WF ⟨1, 1, [4, 3, 2, 1]⟩ ∧
      Stamp.compareCanvases ⟨1, 1, [1, 2, 3, 4]⟩ ⟨1, 1, [4, 3, 2, 1]⟩ (1 / 2) =
        Stamp.compareCanvases ⟨1, 1, [4, 3, 2, 1]⟩ ⟨1, 1, [1, 2, 3, 4]⟩ (1 / 2) :=
  ⟨by decide, by decide,
    compareCanvases_symm ⟨1, 1, [1, 2, 3, 4]⟩ ⟨1, 1, [4, 3, 2, 1]⟩ (1 / 2)
      (by decide) (by decide)⟩

/-- C10: `hasContent` agrees with `getImageDataStats`: a buffer has
content exactly when its stats record counts at least one non-transparent
pixel (both are defined by the same `alpha > 0` scan). -/
theorem hasContent_iff_stats (A : Stamp.ImageData) :
    Stamp.hasContent A = true ↔ 0 < (Stamp.getImageDataStats A).nonTransparentPixels := by
  rw [Stamp.hasContent, Stamp.getImageDataStats]
  simp only [List.any_eq_true, List.countP_pos_iff]

namespace Stamp

theorem pixelScore_self (t : ℚ) (ht : 0 ≤ t) (r g b a : ℕ) :
    pixelScore t r g b a r g b a = 1 := by
  unfold pixelScore
  by_cases ha : 0 < a
  · have hC1 : ¬(¬0 < a ∧ ¬0 < a) := fun h => h.1 ha
    rw [if_neg hC1, if_pos ⟨ha, ha⟩, if_pos]
    refine ⟨⟨by linarith, ?_⟩, ?_⟩
    · have hz : ((a : ℚ) - a) ^ 2 + ((a : ℚ) - a) ^ 2 + ((a : ℚ) - a) ^ 2 = 0 := by ring
      simp only [sub_self]
      norm_num
      positivity
    · simp only [sub_self, abs_zero, zero_div]
      linarith
  · rw [if_pos ⟨ha, ha⟩]

theorem matchLoop_self (t : ℚ) (ht : 0 ≤ t) :
    ∀ (n : ℕ) (d : List ℕ), d.length = 4 * n → matchLoop t d d = n := by
  intro n
  induction n with
  | zero =>
      intro d hd
      have : d = [] := List.length_eq_zero.mp (by simpa using hd)
      subst this
      rfl
  | succ k ih =>
      intro d hd
      match d with
      | r :: g :: b :: a :: rest =>
          have hrest : rest.length = 4 * k := by
            simp only [List.length_cons] at hd
            omega
          rw [matchLoop, pixelScore_self t ht, ih rest hrest]
          push_cast
          ring
      | [] => simp only [List.length_nil] at hd; omega
      | [_] => simp only [List.length_cons, List.length_nil] at hd; omega
      | [_, _] => simp only [List.length_cons, List.length_nil] at hd; omega
      | [_, _, _] => simp only [List.length_cons, List.length_nil] at hd; omega

end Stamp

/-- C6 counterexample: the claim as stated quantifies over every buffer
whose data length is `4 * width * height`, including the degenerate
zero-area buffer; comparing the empty 0 by 0 buffer with itself at
tolerance 0 yields similarity 0, not 100. -/
theorem compare_self_degenerate_counterexample :
    Stamp.WF ⟨0, 0, []⟩ ∧ (0 : ℚ) ≤ 0 ∧
      (Stamp.compareCanvases ⟨0, 0, []⟩ ⟨0, 0, []⟩ 0).similarity ≠ 100 := by
  refine ⟨by decide, le_refl 0, ?_⟩
  rw [Stamp.compareCanvases]
  norm_num [Stamp.matchLoop]

/-- C6 (amended): comparing a well-formed buffer of positive area with
itself yields full similarity: `compare(A, A, t).similarityPercent = 100`
for every tolerance `t ≥ 0`.  (The original claim also admitted
zero-area buffers, where the source divides 0 by 0 and the similarity is
not 100; see `compare_self_degenerate_counterexample`.) -/
theorem compare_self_similarity (A : Stamp.ImageData) (t : ℚ) (ht : 0 ≤ t)
    (hA : Stamp.WF A) (hpos : 0 < A.width * A.height) :
    (Stamp.compareCanvases A A t).similarity = 100 := by
  rw [Stamp.compareCanvases, if_neg (by simp)]
  have hm : Stamp.matchLoop t A.data A.data = (A.width * A.height : ℕ) :=
    Stamp.matchLoop_self t ht (A.width * A.height) A.data hA
  simp only [hm]
  rw [div_self (by positivity), one_mul]

/-- Witness for the amended C6 at a concrete opaque 1 by 1 buffer. -/
theorem compare_self_similarity_witness :
    ((0 : ℚ) ≤ 1 / 4 ∧ Stamp.WF ⟨1, 1, [255, 0, 0, 255]⟩ ∧
        0 < (⟨1, 1, [255, 0, 0, 255]⟩ : Stamp.ImageData).width *
          (⟨1, 1, [255, 0, 0, 255]⟩ : Stamp.ImageData).height) ∧
      (Stamp.compareCanvases ⟨1, 1, [255, 0, 0, 255]⟩ ⟨1, 1, [255, 0, 0, 255]⟩
        (1 / 4)).similarity = 100 :=
  ⟨⟨by norm_num, by decide, by decide⟩,
    compare_self_similarity ⟨1, 1, [255, 0, 0, 255]⟩ (1 / 4) (by norm_num)
      (by decide) (by decide)⟩

namespace Stamp

theorem pixelScore_mono (t1 t2 : ℚ) (h12 : t1 ≤ t2) (r1 g1 b1 a1 r2 g2 b2 a2 : ℕ) :
    pixelScore t1 r1 g1 b1 a1 r2 g2 b2 a2 ≤ pixelScore t2 r1 g1 b1 a1 r2 g2 b2 a2 := by
  have hDmono :
      sqrtQuotLe (((r1 : ℚ) - r2) ^ 2 + ((g1 : ℚ) - g2) ^ 2 + ((b1 : ℚ) - b2) ^ 2)
          (3 * 255 ^ 2) (t1 * 2) ∧ |(a1 : ℚ) - a2| / 255 ≤ t1 * 2 →
        sqrtQuotLe (((r1 : ℚ) - r2) ^ 2 + ((g1 : ℚ) - g2) ^ 2 + ((b1 : ℚ) - b2) ^ 2)
          (3 * 255 ^ 2) (t2 * 2) ∧ |(a1 : ℚ) - a2| / 255 ≤ t2 * 2 := by
    rintro ⟨⟨hb, hs⟩, ha⟩
    refine ⟨⟨by linarith, le_trans hs ?_⟩, by linarith⟩
    nlinarith
  unfold pixelScore
  by_cases hC1 : ¬0 < a1 ∧ ¬0 < a2
  · rw [if_pos hC1, if_pos hC1]
  · rw [if_neg hC1, if_neg hC1]
    by_cases hC2 : 0 < a1 ∧ 0 < a2
    · rw [if_pos hC2, if_pos hC2]
      by_cases hd : sqrtQuotLe (((r1 : ℚ) - r2) ^ 2 + ((g1 : ℚ) - g2) ^ 2 + ((b1 : ℚ) - b2) ^ 2)
          (3 * 255 ^ 2) (t1 * 2) ∧ |(a1 : ℚ) - a2| / 255 ≤ t1 * 2
      · rw [if_pos hd, if_pos (hDmono hd)]
      · rw [if_neg hd]
        split <;> norm_num
    · rw [if_neg hC2, if_neg hC2]

theorem matchLoop_mono (t1 t2 : ℚ) (h12 : t1 ≤ t2) (d1 d2 : List ℕ) :
    matchLoop t1 d1 d2 ≤ matchLoop t2 d1 d2 := by
  induction d1, d2 using matchLoop.induct t1 with
  | case1 r1 g1 b1 a1 rest1 r2 g2 b2 a2 rest2 ih =>
      rw [matchLoop, matchLoop]
      exact add_le_add (pixelScore_mono t1 t2 h12 _ _ _ _ _ _ _ _) ih
  | case2 u v h =>
      rw [matchLoop_eq_zero t1 u v h, matchLoop_eq_zero t2 u v h]

end Stamp

/-- The decidable comparison `sqrtQuotLe` used in the embedding agrees
with the square-root comparison computed by the source. -/
theorem sqrtQuotLe_iff_sqrt (s c b : ℚ) (hs : 0 ≤ s) (hc : 0 < c) :
    Stamp.sqrtQuotLe s c b ↔ Real.sqrt s / Real.sqrt c ≤ (b : ℝ) := by
  have hcR : (0 : ℝ) < Real.sqrt c := Real.sqrt_pos.mpr (by exact_mod_cast hc)
  rw [div_le_iff₀ hcR, Stamp.sqrtQuotLe]
  constructor
  · rintro ⟨hb, hsc⟩
    have hbR : (0 : ℝ) ≤ (b : ℝ) := by exact_mod_cast hb
    have h1 : Real.sqrt s ≤ Real.sqrt ((b : ℝ) ^ 2 * c) := by
      apply Real.sqrt_le_sqrt
      exact_mod_cast hsc
    calc Real.sqrt s ≤ Real.sqrt ((b : ℝ) ^ 2 * c) := h1
      _ = Real.sqrt ((b : ℝ) ^ 2) * Real.sqrt c := Real.sqrt_mul (by positivity) _
      _ = (b : ℝ) * Real.sqrt c := by rw [Real.sqrt_sq hbR]
  · intro h
    have hsnn : (0 : ℝ) ≤ Real.sqrt (s : ℝ) := Real.sqrt_nonneg _
    have hbR : (0 : ℝ) ≤ (b : ℝ) := by
      by_contra hneg
      push_neg at hneg
      nlinarith
    refine ⟨by exact_mod_cast hbR, ?_⟩
    have hsq : (s : ℝ) ≤ ((b : ℝ) * Real.sqrt c) ^ 2 := by
      have := mul_self_le_mul_self hsnn h
      calc (s : ℝ) = Real.sqrt s ^ 2 := (Real.sq_sqrt (by exact_mod_cast hs)).symm
        _ ≤ ((b : ℝ) * Real.sqrt c) ^ 2 := by nlinarith
    have hc2 : ((b : ℝ) * Real.sqrt c) ^ 2 = (b : ℝ) ^ 2 * c := by
      rw [mul_pow, Real.sq_sqrt (by positivity)]
    rw [hc2] at hsq
    exact_mod_cast hsq

open Classical in
/-- Claim-side per-pixel classification, stated exactly as the claim
does: 1 when both alphas are 0; when both alphas are positive, 1
precisely when the normalized Euclidean RGB distance (a real square
root) is at most `2 * tolerance` and the normalized alpha distance is at
most `2 * tolerance`, else 0; 1/2 when exactly one alpha is positive. -/
noncomputable def claimPixelScore (t : ℚ) (r1 g1 b1 a1 r2 g2 b2 a2 : ℕ) : ℚ :=
  if a1 = 0 ∧ a2 = 0 then 1
  else if 0 < a1 ∧ 0 < a2 then
    if Real.sqrt (((r1 : ℝ) - r2) ^ 2 + ((g1 : ℝ) - g2) ^ 2 + ((b1 : ℝ) - b2) ^ 2) /
          Real.sqrt (3 * 255 ^ 2) ≤ 2 * (t : ℝ) ∧
        |(a1 : ℝ) - a2| / 255 ≤ 2 * (t : ℝ) then 1
    else 0
  else 1 / 2

/-- Claim-side total: the sum of `claimPixelScore` over the pixel
positions of two equal-length RGBA arrays. -/
noncomputable def claimMatchSum (t : ℚ) : List ℕ → List ℕ → ℚ
  | r1 :: g1 :: b1 :: a1 :: rest1, r2 :: g2 :: b2 :: a2 :: rest2 =>
      claimPixelScore t r1 g1 b1 a1 r2 g2 b2 a2 + claimMatchSum t rest1 rest2
  | _, _ => 0

theorem pixelScore_eq_claim (t : ℚ) (r1 g1 b1 a1 r2 g2 b2 a2 : ℕ) :
    Stamp.pixelScore t r1 g1 b1 a1 r2 g2 b2 a2 = claimPixelScore t r1 g1 b1 a1 r2 g2 b2 a2 := by
  unfold Stamp.pixelScore claimPixelScore
  have hC1 : (¬0 < a1 ∧ ¬0 < a2) ↔ (a1 = 0 ∧ a2 = 0) := by omega
  have hsqrt : Stamp.sqrtQuotLe (((r1 : ℚ) - r2) ^ 2 + ((g1 : ℚ) - g2) ^ 2 + ((b1 : ℚ) - b2) ^ 2)
        (3 * 255 ^ 2) (t * 2) ↔
      Real.sqrt (((r1 : ℝ) - r2) ^ 2 + ((g1 : ℝ) - g2) ^ 2 + ((b1 : ℝ) - b2) ^ 2) /
          Real.sqrt (3 * 255 ^ 2) ≤ 2 * (t : ℝ) := by
    rw [sqrtQuotLe_iff_sqrt _ _ _ (by positivity) (by norm_num)]
    constructor
    · intro h
      calc Real.sqrt (((r1 : ℝ) - r2) ^ 2 + ((g1 : ℝ) - g2) ^ 2 + ((b1 : ℝ) - b2) ^ 2) /
            Real.sqrt (3 * 255 ^ 2)
          = Real.sqrt (((((r1 : ℚ) - r2) ^ 2 + ((g1 : ℚ) - g2) ^ 2 + ((b1 : ℚ) - b2) ^ 2 : ℚ) : ℝ)) /
            Real.sqrt (((3 * 255 ^ 2 : ℚ) : ℝ)) := by push_cast; ring_nf
        _ ≤ ((t * 2 : ℚ) : ℝ) := h
        _ = 2 * (t : ℝ) := by push_cast; ring
    · intro h
      calc Real.sqrt (((((r1 : ℚ) - r2) ^ 2 + ((g1 : ℚ) - g2) ^ 2 + ((b1 : ℚ) - b2) ^ 2 : ℚ) : ℝ)) /
            Real.sqrt (((3 * 255 ^ 2 : ℚ) : ℝ))
          = Real.sqrt (((r1 : ℝ) - r2) ^ 2 + ((g1 : ℝ) - g2) ^ 2 + ((b1 : ℝ) - b2) ^ 2) /
            Real.sqrt (3 * 255 ^ 2) := by push_cast; ring_nf
        _ ≤ 2 * (t : ℝ) := h
        _ = ((t * 2 : ℚ) : ℝ) := by push_cast; ring
  have halpha : (|(a1 : ℚ) - a2| / 255 ≤ t * 2) ↔ (|(a1 : ℝ) - a2| / 255 ≤ 2 * (t : ℝ)) := by
    rw [show |(a1 : ℝ) - a2| = ((|(a1 : ℚ) - a2| : ℚ) : ℝ) by push_cast; rfl]
    rw [show ((255 : ℝ)) = ((255 : ℚ) : ℝ) by norm_num]
    rw [div_le_iff₀ (by norm_num), div_le_iff₀ (by norm_num)]
    constructor
    · intro h
      have : ((|(a1 : ℚ) - a2| : ℚ) : ℝ) ≤ ((t * 2 * 255 : ℚ) : ℝ) := by exact_mod_cast h
      calc ((|(a1 : ℚ) - a2| : ℚ) : ℝ) ≤ ((t * 2 * 255 : ℚ) : ℝ) := this
        _ = 2 * (t : ℝ) * ((255 : ℚ) : ℝ) := by push_cast; ring
    · intro h
      have h2 : ((|(a1 : ℚ) - a2| : ℚ) : ℝ) ≤ ((t * 2 * 255 : ℚ) : ℝ) := by
        calc ((|(a1 : ℚ) - a2| : ℚ) : ℝ) ≤ 2 * (t : ℝ) * ((255 : ℚ) : ℝ) := h
          _ = ((t * 2 * 255 : ℚ) : ℝ) := by push_cast; ring
      exact_mod_cast h2
  by_cases h1 : ¬0 < a1 ∧ ¬0 < a2
  · rw [if_pos h1, if_pos (hC1.mp h1)]
  · rw [if_neg h1, if_neg (fun h => h1 (hC1.mpr h))]
    by_cases h2 : 0 < a1 ∧ 0 < a2
    · rw [if_pos h2, if_pos h2]
      by_cases hd : Stamp.sqrtQuotLe
          (((r1 : ℚ) - r2) ^ 2 + ((g1 : ℚ) - g2) ^ 2 + ((b1 : ℚ) - b2) ^ 2)
          (3 * 255 ^ 2) (t * 2) ∧ |(a1 : ℚ) - a2| / 255 ≤ t * 2
      · rw [if_pos hd, if_pos ⟨hsqrt.mp hd.1, halpha.mp hd.2⟩]
      · rw [if_neg hd, if_neg (fun h => hd ⟨hsqrt.mpr h.1, halpha.mpr h.2⟩)]
    · rw [if_neg h2, if_neg h2, if_pos (show 0 < a1 ∨ 0 < a2 by omega)]

theorem matchLoop_eq_claimMatchSum (t : ℚ) (d1 d2 : List ℕ) :
    Stamp.matchLoop t d1 d2 = claimMatchSum t d1 d2 := by
  induction d1, d2 using Stamp.matchLoop.induct t with
  | case1 r1 g1 b1 a1 rest1 r2 g2 b2 a2 rest2 ih =>
      rw [Stamp.matchLoop, claimMatchSum, pixelScore_eq_claim, ih]
  | case2 u v h =>
      rw [Stamp.matchLoop_eq_zero t u v h]
      rw [claimMatchSum.eq_def]
      split
      · rename_i r1 g1 b1 a1 rest1 r2 g2 b2 a2 rest2
        exact (h r1 g1 b1 a1 rest1 r2 g2 b2 a2 rest2 rfl rfl).elim
      · rfl

/-- C1: on equal-dimension well-formed buffers, `compareCanvases`
classifies every pixel position exactly as the claim states (1 for two
transparent pixels; for two content pixels 1 exactly when the normalized
Euclidean RGB distance and the normalized alpha distance are both at
most twice the tolerance; 1/2 when exactly one pixel has content), and
the result satisfies `similarityPercent = 100 * matchingPixels /
(width * height)` and `isMatch = (similarityPercent ≥ 100 * (1 -
tolerance))`. -/
theorem compareCanvases_pixel_classification (A B : Stamp.ImageData) (t : ℚ)
    (hw : A.width = B.width) (hh : A.height = B.height)
    (_hA : Stamp.WF A) (_hB : Stamp.WF B) :
    (Stamp.compareCanvases A B t).matchingPixels = claimMatchSum t A.data B.data ∧
      (Stamp.compareCanvases A B t).totalPixels = A.width * A.height ∧
      (Stamp.compareCanvases A B t).similarity =
        100 * (Stamp.compareCanvases A B t).matchingPixels / ((A.width * A.height : ℕ) : ℚ) ∧
      ((Stamp.compareCanvases A B t).isMatch = true ↔
        100 * (1 - t) ≤ (Stamp.compareCanvases A B t).similarity) := by
  rw [Stamp.compareCanvases, if_neg (by simp [hw, hh])]
  refine ⟨matchLoop_eq_claimMatchSum t A.data B.data, rfl, by ring, ?_⟩
  simp only [decide_eq_true_eq]
  constructor <;> intro h <;> linarith

/-- Witness for C1 at a concrete pair of 1 by 1 buffers. -/
theorem compareCanvases_pixel_classification_witness :
    ((⟨1, 1, [1, 2, 3, 4]⟩ : Stamp.ImageData).width =
        (⟨1, 1, [9, 9, 9, 0]⟩ : Stamp.ImageData).width ∧
      (⟨1, 1, [1, 2, 3, 4]⟩ : Stamp.ImageData).height =
        (⟨1, 1, [9, 9, 9, 0]⟩ : Stamp.ImageData).height ∧
      Stamp.WF ⟨1, 1, [1, 2, 3, 4]⟩ ∧ Stamp.WF ⟨1, 1, [9, 9, 9, 0]⟩) ∧
      ((Stamp.compareCanvases ⟨1, 1, [1, 2, 3, 4]⟩ ⟨1, 1, [9, 9, 9, 0]⟩ (1 / 5)).matchingPixels
          = claimMatchSum (1 / 5) [1, 2, 3, 4] [9, 9, 9, 0] ∧
        (Stamp.compareCanvases ⟨1, 1, [1, 2, 3, 4]⟩ ⟨1, 1, [9, 9, 9, 0]⟩ (1 / 5)).totalPixels
          = 1 * 1 ∧
        (Stamp.compareCanvases ⟨1, 1, [1, 2, 3, 4]⟩ ⟨1, 1, [9, 9, 9, 0]⟩ (1 / 5)).similarity
          = 100 * (Stamp.compareCanvases ⟨1, 1, [1, 2, 3, 4]⟩ ⟨1, 1, [9, 9, 9, 0]⟩
              (1 / 5)).matchingPixels / (((1 * 1 : ℕ) : ℚ)) ∧
        ((Stamp.compareCanvases ⟨1, 1, [1, 2, 3, 4]⟩ ⟨1, 1, [9, 9, 9, 0]⟩ (1 / 5)).isMatch = true ↔
          100 * (1 - 1 / 5) ≤
            (Stamp.compareCanvases ⟨1, 1, [1, 2, 3, 4]⟩ ⟨1, 1, [9, 9, 9, 0]⟩ (1 / 5)).similarity)) :=
  ⟨⟨rfl, rfl, by decide, by decide⟩,
    compareCanvases_pixel_classification ⟨1, 1, [1, 2, 3, 4]⟩ ⟨1, 1, [9, 9, 9, 0]⟩ (1 / 5)
      rfl rfl (by decide) (by decide)⟩

/-- C7: `isMatch` is monotone in the tolerance: if a pair of buffers
matches at tolerance `t1` then it still matches at any larger tolerance
`t2` (raising the tolerance both loosens every per-pixel threshold and
lowers the overall match threshold). -/
theorem isMatch_monotone (A B : Stamp.ImageData) (t1 t2 : ℚ) (h12 : t1 ≤ t2)
    (h : (Stamp.compareCanvases A B t1).isMatch = true) :
    (Stamp.compareCanvases A B t2).isMatch = true := by
  by_cases hdim : A.width ≠ B.width ∨ A.height ≠ B.height
  · rw [Stamp.compareCanvases, if_pos hdim] at h
    simp at h
  · rw [Stamp.compareCanvases, if_neg hdim] at h ⊢
    simp only [decide_eq_true_eq] at h ⊢
    have hmono : Stamp.matchLoop t1 A.data B.data / ((A.width * A.height : ℕ) : ℚ) * 100 ≤
        Stamp.matchLoop t2 A.data B.data / ((A.width * A.height : ℕ) : ℚ) * 100 := by
      have hml := Stamp.matchLoop_mono t1 t2 h12 A.data B.data
      rcases Nat.eq_zero_or_pos (A.width * A.height) with hT | hT
      · simp [hT]
      · have hTpos : (0 : ℚ) < ((A.width * A.height : ℕ) : ℚ) := by exact_mod_cast hT
        gcongr
    calc (1 - t2) * 100 ≤ (1 - t1) * 100 := by linarith
      _ ≤ _ := le_trans h hmono

/-- Witness for C7: two equal opaque 1 by 1 buffers match at tolerance 0,
hence also at the larger tolerance 1/2. -/
theorem isMatch_monotone_witness :
    ((0 : ℚ) ≤ 1 / 2 ∧
        (Stamp.compareCanvases ⟨1, 1, [9, 9, 9, 9]⟩ ⟨1, 1, [9, 9, 9, 9]⟩ 0).isMatch = true) ∧
      (Stamp.compareCanvases ⟨1, 1, [9, 9, 9, 9]⟩ ⟨1, 1, [9, 9, 9, 9]⟩ (1 / 2)).isMatch
        = true := by
  have h0 : (Stamp.compareCanvases ⟨1, 1, [9, 9, 9, 9]⟩ ⟨1, 1, [9, 9, 9, 9]⟩ 0).isMatch
      = true := by
    rw [Stamp.compareCanvases]
    norm_num [Stamp.matchLoop, Stamp.pixelScore, Stamp.sqrtQuotLe]
  exact ⟨⟨by norm_num, h0⟩,
    isMatch_monotone ⟨1, 1, [9, 9, 9, 9]⟩ ⟨1, 1, [9, 9, 9, 9]⟩ 0 (1 / 2) (by norm_num) h0⟩

/-!
### Part 2: the `StampCanvas` capture component

The component's contact points, convex hull routine, contact-area
rasterization and gesture handlers, embedded as pure data.  Canvas 2D
side effects are modeled as data: a path is the list of path-segment
commands issued between `beginPath` and the drawing call, and the canvas
bitmap is the list of drawing operations (fills/strokes) performed since
the last `clearRect` — the empty list is the fully transparent canvas of
the configured dimensions.
-/

namespace Stamp

/-- A contact point as stored by the component's `contactPoints` /
`touchHistory` arrays: position, pressure and timestamp.  (The hull and
drawing helpers ignore the timestamp; it travels with the record.) -/
structure Pt where
  x : ℚ
  y : ℚ
  pressure : ℚ
  timestamp : ℚ
deriving DecidableEq

/-- The cross-product orientation test appearing in both while-loop
conditions of `convexHull`:
`(last.x - prev.x) * (p.y - prev.y) - (last.y - prev.y) * (p.x - prev.x)`
with `o` the second-to-last point, `p` the last point and `q` the
candidate. -/
def hullCross (o p q : Pt) : ℚ :=
  (p.x - o.x) * (q.y - o.y) - (p.y - o.y) * (q.x - o.x)

/-- The hull `while` loop: repeatedly pop the top of the stack while the
last two stack entries and the new point do not make a strict
counter-clockwise turn (`cross ≤ 0`).  The stack is kept head-first
(list head = last array element). -/
def popWhile (p : Pt) : List Pt → List Pt
  | b :: a :: rest => if hullCross a b p ≤ 0 then popWhile p (a :: rest) else b :: a :: rest
  | l => l

/-- Process one scanned point: pop, then push it. -/
def chainStep (acc : List Pt) (p : Pt) : List Pt := p :: popWhile p acc

/-- One half-hull of the monotone-chain scan (stack order: head is the
most recently pushed point). -/
def buildChain (pts : List Pt) : List Pt := pts.foldl chainStep []

/-- The comparator `(a, b) => a.x - b.x || a.y - b.y` of the sort call in
`convexHull`: ascending x, ties broken by ascending y. -/
def lexLe (a b : Pt) : Bool := decide (a.x < b.x ∨ (a.x = b.x ∧ a.y ≤ b.y))

/-- `convexHull` from `StampCanvas`: fewer than 3 points are returned
unchanged; otherwise sort lexicographically, build the lower hull over
the sorted points and the upper hull over the reversed order, drop the
last (duplicated) point of each chain and concatenate. -/
def convexHull (points : List Pt) : List Pt :=
  if points.length < 3 then points
  else
    let sorted := points.mergeSort lexLe
    let lower := (buildChain sorted).reverse
    let upper := (buildChain sorted.reverse).reverse
    lower.dropLast ++ upper.dropLast

/-- Group index of a direction vector in the `atan2` value order:
`atan2` maps the lower open half-plane to `(-pi, 0)`, the non-negative
x-axis (including the origin) to `0`, the upper open half-plane to
`(0, pi)` and the negative x-axis to `pi`. -/
def angleGroup (dx dy : ℚ) : ℕ :=
  if dy < 0 then 0
  else if dy = 0 ∧ 0 ≤ dx then 1
  else if 0 < dy then 2
  else 3

/-- Decidable realization of the component's angular comparator
`atan2(a.y - cy, a.x - cx) - atan2(b.y - cy, b.x - cx)`: compare the
`atan2` groups, and within an open half-plane compare by the cross
product (inside one open half-plane, the `atan2` value of `u` is at most
that of `v` exactly when `v` is counter-clockwise from `u`). -/
def angleLe (cx cy : ℚ) (a b : Pt) : Bool :=
  let ux := a.x - cx
  let uy := a.y - cy
  let vx := b.x - cx
  let vy := b.y - cy
  let ga := angleGroup ux uy
  let gb := angleGroup vx vy
  if ga ≠ gb then decide (ga < gb)
  else if ga = 0 ∨ ga = 2 then decide (0 ≤ ux * vy - uy * vx)
  else true

/-- The `Shape` record produced by `createShapeFromPoints`. -/
structure Shape where
  centerX : ℚ
  centerY : ℚ
  points : List Pt
  allPoints : List Pt
deriving DecidableEq

/-- `createShapeFromPoints` from `StampCanvas`: `null` on an empty
input; otherwise reduce to the convex hull, average the hull points to a
centroid, and sort the hull points by angle around the centroid. -/
def createShapeFromPoints (points : List Pt) : Option Shape :=
  if points.length = 0 then none
  else
    let hullPoints := convexHull points
    let centerX := (hullPoints.map Pt.x).sum / (hullPoints.length : ℚ)
    let centerY := (hullPoints.map Pt.y).sum / (hullPoints.length : ℚ)
    let sortedPoints := hullPoints.mergeSort (angleLe centerX centerY)
    some ⟨centerX, centerY, sortedPoints, points⟩

/-- Canvas 2D path-segment commands issued by the component. -/
inductive PathSeg where
  | arc (x y radius : ℚ)
  | ellipse (x y radiusX radiusY : ℚ)
  | moveTo (x y : ℚ)
  | lineTo (x y : ℚ)
  | quadraticCurveTo (cpx cpy x y : ℚ)
  | closePath
deriving DecidableEq

/-- Canvas drawing operations: `fill` with the opaque black `fillStyle`,
the extra soft-shading `fill` with `rgba(0, 0, 0, 0.1)`, `fillRect`, and
`stroke` of the current path. -/
inductive DrawOp where
  | fill (path : List PathSeg)
  | fillShade (path : List PathSeg)
  | fillRect (x y w h : ℚ)
  | stroke (path : List PathSeg)
deriving DecidableEq

/-- The `i >= 2` iterations of the smoothing loop in `drawContactArea`:
`quadraticCurveTo(previous.x, previous.y, controlX, controlY)` with the
control point the midpoint of the previous and current points. -/
def curveSegs : Pt → List Pt → List PathSeg
  | _, [] => []
  | prev, cur :: rest =>
      PathSeg.quadraticCurveTo prev.x prev.y ((prev.x + cur.x) / 2) ((prev.y + cur.y) / 2) ::
        curveSegs cur rest

/-- The smoothed outline path of the four-or-more-points branch of
`drawContactArea`: `moveTo` the first sorted point, a first special
curve (`i = 1` uses the midpoint as control and the current point as
target), the remaining curves via `curveSegs`, and the closing curve
back towards the first point followed by `closePath`.  (The source
guards the closing segment by `shape.points.length > 2`, which always
holds in that branch.) -/
def smoothPath (pts : List Pt) : List PathSeg :=
  match pts with
  | p0 :: p1 :: rest =>
      let lastP := List.getLastD (p1 :: rest) p0
      [PathSeg.moveTo p0.x p0.y,
        PathSeg.quadraticCurveTo ((p0.x + p1.x) / 2) ((p0.y + p1.y) / 2) p1.x p1.y] ++
      curveSegs p1 rest ++
      [PathSeg.quadraticCurveTo lastP.x lastP.y ((lastP.x + p0.x) / 2) ((lastP.y + p0.y) / 2),
        PathSeg.closePath]
  | _ => []

/-- `drawContactArea` from `StampCanvas`.  Dispatch on the raw point
count: one point draws a pressure-sized circle, two an ellipse, three a
triangle; four or more draw the smoothed angular outline of the hull
(nothing at all if the hull degenerates below 3 points — the source
returns before `ctx.fill()`), followed by the extra semi-transparent
shading fill for this case only. -/
def drawContactArea (points : List Pt) : List DrawOp :=
  match createShapeFromPoints points with
  | none => []
  | some shape =>
      match points with
      | [] => []
      | [point] =>
          [DrawOp.fill [PathSeg.arc point.x point.y (6 + point.pressure * 20)]]
      | [p1, p2] =>
          [DrawOp.fill [PathSeg.ellipse ((p1.x + p2.x) / 2) ((p1.y + p2.y) / 2)
            (|p2.x - p1.x| / 2 + 6) (|p2.y - p1.y| / 2 + 6)]]
      | [q0, q1, q2] =>
          [DrawOp.fill [PathSeg.moveTo q0.x q0.y, PathSeg.lineTo q1.x q1.y,
            PathSeg.lineTo q2.x q2.y, PathSeg.closePath]]
      | _ =>
          if shape.points.length < 3 then []
          else [DrawOp.fill (smoothPath shape.points), DrawOp.fillShade (smoothPath shape.points)]

/-- The four values of the `StampShape` union type. -/
inductive StampShape where
  | auto
  | circle
  | square
  | freehand
deriving DecidableEq

/-- The component state: the `isDrawing`, `isCapturing`, `hasContent`
flags, the `contactPoints` and `touchHistory` arrays, the canvas bitmap
(as the drawing operations since the last `clearRect`; `[]` is the fully
transparent canvas of the configured dimensions), and the 2D context's
current path (used by the freehand mode). -/
structure CState where
  isDrawing : Bool
  isCapturing : Bool
  hasContent : Bool
  contactPoints : List Pt
  touchHistory : List Pt
  canvas : List DrawOp
  path : List PathSeg
deriving DecidableEq

/-- The component's initial state: nothing drawn, no gesture active. -/
def initialState : CState := ⟨false, false, false, [], [], [], []⟩

/-- Input events of the component: `start`/`move` carry the contact
samples extracted from the browser event (coordinates already scaled to
canvas space, pressure defaults applied), `finish` models
mouseup/touchend/touchcancel via `handleEnd`, and `clear` is the exposed
`clearCanvas`. -/
inductive Ev where
  | start (ps : List Pt)
  | move (ps : List Pt)
  | finish
  | clear
deriving DecidableEq

/-- First sample of an event (`touches[0]`, or the mouse position); start
and move events always carry at least one sample. -/
def headPt : List Pt → Pt
  | [] => ⟨0, 0, 0, 0⟩
  | p :: _ => p

/-- One step of the gesture state machine: the four handlers of
`StampCanvas` (`handleStart`, `handleMove`, `handleEnd`, `clearCanvas`)
acting on the component state, for a fixed shape mode. -/
def step (shape : StampShape) (s : CState) : Ev → CState
  | .start ps =>
      match shape with
      | .auto =>
          { s with
            isDrawing := true
            isCapturing := true
            contactPoints := ps
            touchHistory := s.touchHistory ++ ps
            canvas := s.canvas ++ drawContactArea ps
            hasContent := true }
      | .circle =>
          { s with
            isDrawing := true
            isCapturing := true
            contactPoints := []
            canvas := s.canvas ++ [DrawOp.fill [PathSeg.arc (headPt ps).x (headPt ps).y 30]]
            hasContent := true }
      | .square =>
          { s with
            isDrawing := true
            isCapturing := true
            contactPoints := []
            canvas := s.canvas ++
              [DrawOp.fillRect ((headPt ps).x - 15) ((headPt ps).y - 15) 30 30]
            hasContent := true }
      | .freehand =>
          { s with
            isDrawing := true
            isCapturing := true
            contactPoints := []
            path := [PathSeg.moveTo (headPt ps).x (headPt ps).y]
            hasContent := true }
  | .move ps =>
      if ¬(s.isDrawing = true ∧ s.isCapturing = true) then s
      else
        match shape with
        | .auto =>
            { s with
              contactPoints := s.contactPoints ++ ps
              touchHistory := s.touchHistory ++ ps
              canvas := drawContactArea (s.contactPoints ++ ps) }
        | .freehand =>
            { s with
              path := s.path ++ [PathSeg.lineTo (headPt ps).x (headPt ps).y]
              canvas := s.canvas ++
                [DrawOp.stroke (s.path ++ [PathSeg.lineTo (headPt ps).x (headPt ps).y])] }
        | _ => s
  | .finish =>
      if ¬s.isDrawing = true then s
      else
        let s1 := { s with isDrawing := false, isCapturing := false }
        let s2 := if shape = .freehand then { s1 with path := [] } else s1
        if shape = .auto ∧ s.touchHistory ≠ [] then
          { s2 with canvas := drawContactArea s.touchHistory }
        else s2
  | .clear =>
      { s with
        canvas := []
        hasContent := false
        contactPoints := []
        touchHistory := []
        isCapturing := false }

end Stamp

/-- C8: `clearCanvas` is safe at every point of the gesture state
machine and cancels the gesture: from any state, in any mode, a `clear`
followed by `handleEnd` leaves the canvas with no drawing operations
since the `clearRect`, i.e. the buffer handed to `onStampComplete` is the
all-transparent buffer of the configured dimensions. -/
theorem clear_then_end_transparent (shape : Stamp.StampShape) (s : Stamp.CState) :
    (Stamp.step shape (Stamp.step shape s .clear) .finish).canvas = [] := by
  cases shape <;> cases hd : s.isDrawing <;> simp [Stamp.step, hd]

/-- C9: in Auto mode, rasterizing a single contact sample draws one
filled circle centered at the sample with radius `6 + pressure * 20`;
in particular pressure 0 gives radius 6 and pressure 1 gives radius
26. -/
theorem drawContactArea_single_point :
    (∀ p : Stamp.Pt, Stamp.drawContactArea [p] =
        [Stamp.DrawOp.fill [Stamp.PathSeg.arc p.x p.y (6 + p.pressure * 20)]]) ∧
      (∀ x y ts : ℚ, Stamp.drawContactArea [⟨x, y, 0, ts⟩] =
        [Stamp.DrawOp.fill [Stamp.PathSeg.arc x y 6]]) ∧
      (∀ x y ts : ℚ, Stamp.drawContactArea [⟨x, y, 1, ts⟩] =
        [Stamp.DrawOp.fill [Stamp.PathSeg.arc x y 26]]) := by
  have hgen : ∀ p : Stamp.Pt, Stamp.drawContactArea [p] =
      [Stamp.DrawOp.fill [Stamp.PathSeg.arc p.x p.y (6 + p.pressure * 20)]] := by
    intro p
    simp [Stamp.drawContactArea, Stamp.createShapeFromPoints]
  refine ⟨hgen, fun x y ts => ?_, fun x y ts => ?_⟩
  · rw [hgen ⟨x, y, 0, ts⟩]
    norm_num
  · rw [hgen ⟨x, y, 1, ts⟩]
    norm_num

/-- C3 counterexample: the buffer produced at the end of a gesture in
Auto mode does depend on samples of an earlier gesture on the same
surface.  A first gesture stamped at the origin followed by a second
gesture stamped at x = 10 ends with an ellipse spanning both gestures'
samples (rasterized from the accumulated `touchHistory`), while the
second gesture alone would end with a single circle at x = 10. -/
theorem gesture_history_counterexample :
    ([Stamp.Ev.start [⟨0, 0, 1, 0⟩], Stamp.Ev.finish,
        Stamp.Ev.start [⟨10, 0, 1, 0⟩], Stamp.Ev.finish].foldl
          (Stamp.step .auto) Stamp.initialState).canvas ≠
      ([Stamp.Ev.start [⟨10, 0, 1, 0⟩], Stamp.Ev.finish].foldl
          (Stamp.step .auto) Stamp.initialState).canvas := by
  norm_num [Stamp.step, Stamp.initialState, Stamp.drawContactArea,
    Stamp.createShapeFromPoints, List.foldl]
  rw [if_neg (by simp)]
  simp

/-- C3 (amended): starting a new gesture resets the per-gesture
`contactPoints` to exactly the new samples, but appends them to the
accumulated `touchHistory`, which persists across gestures and is
emptied only by an explicit clear; the buffer produced at the end of an
Auto-mode gesture is rasterized from the whole `touchHistory` (it is a
function of `touchHistory` alone), so samples from earlier gestures
since the last clear do contribute to a later gesture's buffer. -/
theorem auto_end_draws_touchHistory :
    (∀ (s : Stamp.CState) (ps : List Stamp.Pt),
        (Stamp.step .auto s (.start ps)).contactPoints = ps ∧
          (Stamp.step .auto s (.start ps)).touchHistory = s.touchHistory ++ ps) ∧
      ∀ (s1 s2 : Stamp.CState), s1.isDrawing = true → s2.isDrawing = true →
        s1.touchHistory = s2.touchHistory → s1.touchHistory ≠ [] →
        (Stamp.step .auto s1 .finish).canvas = (Stamp.step .auto s2 .finish).canvas := by
  constructor
  · intro s ps
    exact ⟨rfl, rfl⟩
  · intro s1 s2 h1 h2 hth hne
    have hne2 : s2.touchHistory ≠ [] := hth ▸ hne
    simp [Stamp.step, h1, h2, hne, hne2, hth]

/-- Witness for the amended C3: two states that agree on `touchHistory`
(but differ in `contactPoints` and in the canvas) end the gesture with
the same rasterized buffer. -/
theorem auto_end_draws_touchHistory_witness :
    ((⟨true, true, true, [], [⟨1, 2, 3, 4⟩], [], []⟩ : Stamp.CState).isDrawing = true ∧
        (⟨true, false, false, [⟨1, 2, 3, 4⟩], [⟨1, 2, 3, 4⟩],
          [Stamp.DrawOp.fillRect 0 0 1 1], []⟩ : Stamp.CState).isDrawing = true ∧
        (⟨true, true, true, [], [⟨1, 2, 3, 4⟩], [], []⟩ : Stamp.CState).touchHistory =
          (⟨true, false, false, [⟨1, 2, 3, 4⟩], [⟨1, 2, 3, 4⟩],
            [Stamp.DrawOp.fillRect 0 0 1 1], []⟩ : Stamp.CState).touchHistory ∧
        (⟨true, true, true, [], [⟨1, 2, 3, 4⟩], [], []⟩ : Stamp.CState).touchHistory ≠ []) ∧
      (Stamp.step .auto ⟨true, true, true, [], [⟨1, 2, 3, 4⟩], [], []⟩ .finish).canvas =
        (Stamp.step .auto ⟨true, false, false, [⟨1, 2, 3, 4⟩], [⟨1, 2, 3, 4⟩],
          [Stamp.DrawOp.fillRect 0 0 1 1], []⟩ .finish).canvas :=
  ⟨⟨rfl, rfl, rfl, by simp⟩,
    auto_end_draws_touchHistory.2 _ _ rfl rfl rfl (by simp)⟩

/-!
### Convex hull correctness

Support for the hull claim: a decidable order bridge for the sort
comparator, the geometric `Above`/`Below` relations (a point lying
directly above/below a segment), the monotone-chain invariants, and the
containment and simplicity statements.
-/

namespace Stamp

/-- Projection of a contact point to the rational plane. -/
def toVec (p : Pt) : ℚ × ℚ := (p.x, p.y)

/-- Propositional form of the sort comparator of `convexHull`. -/
def lexLeP (a b : Pt) : Prop := a.x < b.x ∨ (a.x = b.x ∧ a.y ≤ b.y)

theorem lexLe_iff (a b : Pt) : lexLe a b = true ↔ lexLeP a b := by
  simp [lexLe, lexLeP]

theorem lexLeP_refl (a : Pt) : lexLeP a a := Or.inr ⟨rfl, le_refl _⟩

theorem lexLeP_trans {a b c : Pt} (h1 : lexLeP a b) (h2 : lexLeP b c) : lexLeP a c := by
  rcases h1 with h1 | ⟨e1, y1⟩ <;> rcases h2 with h2 | ⟨e2, y2⟩
  · exact Or.inl (lt_trans h1 h2)
  · exact Or.inl (e2 ▸ h1)
  · exact Or.inl (e1 ▸ h2)
  · exact Or.inr ⟨e1.trans e2, le_trans y1 y2⟩

theorem lexLeP_total (a b : Pt) : lexLeP a b ∨ lexLeP b a := by
  rcases lt_trichotomy a.x b.x with h | h | h
  · exact Or.inl (Or.inl h)
  · rcases le_total a.y b.y with hy | hy
    · exact Or.inl (Or.inr ⟨h, hy⟩)
    · exact Or.inr (Or.inr ⟨h.symm, hy⟩)
  · exact Or.inr (Or.inl h)

theorem lexLeP_x {a b : Pt} (h : lexLeP a b) : a.x ≤ b.x := by
  rcases h with h | ⟨e, _⟩
  · exact le_of_lt h
  · exact le_of_eq e

theorem lexLeP_y_of_eq_x {a b : Pt} (h : lexLeP a b) (he : a.x = b.x) : a.y ≤ b.y := by
  rcases h with h | ⟨_, hy⟩
  · exact absurd he (ne_of_lt h)
  · exact hy

/-- `q` lies weakly directly above some point of the segment from `u`
to `v`. -/
def Above (u v q : Pt) : Prop :=
  ∃ t : ℚ, 0 ≤ t ∧ t ≤ 1 ∧ (1 - t) * u.x + t * v.x = q.x ∧ (1 - t) * u.y + t * v.y ≤ q.y

/-- `q` lies weakly directly below some point of the segment from `u`
to `v`. -/
def Below (u v q : Pt) : Prop :=
  ∃ t : ℚ, 0 ≤ t ∧ t ≤ 1 ∧ (1 - t) * u.x + t * v.x = q.x ∧ q.y ≤ (1 - t) * u.y + t * v.y

theorem above_self (p : Pt) : Above p p p :=
  ⟨0, le_refl 0, zero_le_one, by ring, by simp⟩

/-- Transfer of the above-relation along a pop of the lower-hull scan:
if both `u` and `v` lie on or to the left of the directed line from `a`
to `c` (with all four points lexicographically between `a` and `c`),
then everything above the segment `u v` is above the segment `a c`. -/
theorem above_transfer {a c u v q : Pt}
    (hau : lexLeP a u) (hav : lexLeP a v) (huc : lexLeP u c) (hvc : lexLeP v c)
    (hcu : 0 ≤ hullCross a c u) (hcv : 0 ≤ hullCross a c v)
    (hq : Above u v q) : Above a c q := by
  obtain ⟨t, ht0, ht1, hx, hy⟩ := hq
  have h1t : 0 ≤ 1 - t := by linarith
  have hcs : 0 ≤ (c.x - a.x) * (((1 - t) * u.y + t * v.y) - a.y) -
      (c.y - a.y) * (((1 - t) * u.x + t * v.x) - a.x) := by
    have hexp : (c.x - a.x) * (((1 - t) * u.y + t * v.y) - a.y) -
        (c.y - a.y) * (((1 - t) * u.x + t * v.x) - a.x)
        = (1 - t) * hullCross a c u + t * hullCross a c v := by
      simp only [hullCross]
      ring
    rw [hexp]
    have := mul_nonneg h1t hcu
    have := mul_nonneg ht0 hcv
    linarith
  have haxcx : a.x ≤ c.x := lexLeP_x (lexLeP_trans hau huc)
  have haxu : a.x ≤ u.x := lexLeP_x hau
  have haxv : a.x ≤ v.x := lexLeP_x hav
  have hucx : u.x ≤ c.x := lexLeP_x huc
  have hvcx : v.x ≤ c.x := lexLeP_x hvc
  have hsx_lb : a.x ≤ (1 - t) * u.x + t * v.x := by nlinarith
  have hsx_ub : (1 - t) * u.x + t * v.x ≤ c.x := by nlinarith
  rcases eq_or_lt_of_le haxcx with hac | hac
  · -- vertical case: all x-coordinates agree
    have hux : u.x = a.x := by
      have := hac ▸ hucx
      linarith
    have hvx : v.x = a.x := by
      have := hac ▸ hvcx
      linarith
    have hay_u : a.y ≤ u.y := lexLeP_y_of_eq_x hau hux.symm
    have hay_v : a.y ≤ v.y := lexLeP_y_of_eq_x hav hvx.symm
    refine ⟨0, le_refl 0, zero_le_one, ?_, ?_⟩
    · rw [← hx, hux, hvx]
      ring
    · have hsy : a.y ≤ (1 - t) * u.y + t * v.y := by nlinarith
      calc (1 - 0) * a.y + 0 * c.y = a.y := by ring
        _ ≤ (1 - t) * u.y + t * v.y := hsy
        _ ≤ q.y := hy
  · -- a.x < c.x: intersect the vertical line through q with segment a c
    have hd : 0 < c.x - a.x := by linarith
    refine ⟨(q.x - a.x) / (c.x - a.x), ?_, ?_, ?_, ?_⟩
    · apply div_nonneg _ hd.le
      rw [← hx]
      linarith
    · rw [div_le_one hd]
      rw [← hx]
      linarith
    · field_simp
      ring
    · have hkey : ((1 - (q.x - a.x) / (c.x - a.x)) * a.y + (q.x - a.x) / (c.x - a.x) * c.y)
          * (c.x - a.x) = a.y * (c.x - a.x) + (q.x - a.x) * (c.y - a.y) := by
        field_simp
        ring
      rw [← mul_le_mul_right hd, hkey, ← hx]
      have hsyq : ((1 - t) * u.y + t * v.y) * (c.x - a.x) ≤ q.y * (c.x - a.x) :=
        mul_le_mul_of_nonneg_right hy hd.le
      nlinarith [hcs, hsyq]

end Stamp

namespace Stamp

theorem popWhile_eq_of_short (p : Pt) (l : List Pt)
    (h : ∀ (b a : Pt) (rest : List Pt), l = b :: a :: rest → False) : popWhile p l = l := by
  rw [popWhile.eq_def]
  split
  · rename_i b a rest
    exact (h b a rest rfl).elim
  · rfl

theorem popWhile_subset (p : Pt) (l : List Pt) : ∀ x ∈ popWhile p l, x ∈ l := by
  induction l using popWhile.induct p with
  | case1 b a rest hcond ih =>
      intro x hx
      rw [popWhile, if_pos hcond] at hx
      exact List.mem_cons_of_mem b (ih x hx)
  | case2 b a rest hcond =>
      intro x hx
      rwa [popWhile, if_neg hcond] at hx
  | case3 l h =>
      intro x hx
      rwa [popWhile_eq_of_short p l h] at hx

theorem popWhile_ne_nil (p : Pt) (l : List Pt) (h : l ≠ []) : popWhile p l ≠ [] := by
  induction l using popWhile.induct p with
  | case1 b a rest hcond ih =>
      rw [popWhile, if_pos hcond]
      exact ih (List.cons_ne_nil a rest)
  | case2 b a rest hcond =>
      rw [popWhile, if_neg hcond]
      exact List.cons_ne_nil b (a :: rest)
  | case3 l hl =>
      rwa [popWhile_eq_of_short p l hl]

theorem popWhile_getLast? (p : Pt) (l : List Pt) :
    (popWhile p l).getLast? = l.getLast? := by
  induction l using popWhile.induct p with
  | case1 b a rest hcond ih =>
      rw [popWhile, if_pos hcond, ih, List.getLast?_cons_cons]
  | case2 b a rest hcond =>
      rw [popWhile, if_neg hcond]
  | case3 l hl =>
      rw [popWhile_eq_of_short p l hl]

theorem popWhile_chain' (p : Pt) (l : List Pt)
    (h : List.Chain' (fun x y => lexLeP y x) l) :
    List.Chain' (fun x y => lexLeP y x) (popWhile p l) := by
  induction l using popWhile.induct p with
  | case1 b a rest hcond ih =>
      rw [popWhile, if_pos hcond]
      exact ih h.tail
  | case2 b a rest hcond =>
      rwa [popWhile, if_neg hcond]
  | case3 l hl =>
      rwa [popWhile_eq_of_short p l hl]

/-- Coverage of a query point by a half-hull stack: the point lies above
the segment of some adjacent stack pair, or directly above some stack
vertex.  (Stacks are head-first, so in a pair `(b, a)` drawn from
`l.zip l.tail` the second component is the lexicographically earlier
point.) -/
def ChainCov (l : List Pt) (q : Pt) : Prop :=
  (∃ pr ∈ l.zip l.tail, Above pr.2 pr.1 q) ∨ ∃ v ∈ l, Above v v q

/-- Coverage during the pop phase for the pending point `p`: either the
stack covers `q`, or `q` is above the virtual edge from the stack top to
`p`. -/
def CovP (l : List Pt) (p q : Pt) : Prop :=
  ChainCov l q ∨ ∃ h, l.head? = some h ∧ Above h p q

theorem chainCov_cons (x : Pt) (l : List Pt) (q : Pt) (h : ChainCov l q) :
    ChainCov (x :: l) q := by
  rcases h with ⟨pr, hpr, habove⟩ | ⟨v, hv, habove⟩
  · left
    refine ⟨pr, ?_, habove⟩
    cases l with
    | nil => simp at hpr
    | cons y t =>
        rw [List.tail_cons] at hpr ⊢
        rw [List.zip_cons_cons]
        exact List.mem_cons_of_mem _ hpr
  · exact Or.inr ⟨v, List.mem_cons_of_mem x hv, habove⟩

end Stamp

namespace Stamp

theorem hullCross_swap (a b p : Pt) : hullCross a p b = -hullCross a b p := by
  simp only [hullCross]
  ring

theorem hullCross_self_right (a p : Pt) : hullCross a p p = 0 := by
  simp only [hullCross]
  ring

theorem hullCross_self_mid (a p : Pt) : hullCross a p a = 0 := by
  simp only [hullCross]
  ring

/-- The pop phase preserves coverage: every point covered by the stack
(or by the virtual top edge towards the pending point `p`) is still
covered after the while loop pops. -/
theorem popWhile_covP (p q : Pt) (l : List Pt)
    (hsorted : List.Chain' (fun x y => lexLeP y x) l)
    (hbound : ∀ x ∈ l, lexLeP x p)
    (hq : CovP l p q) : CovP (popWhile p l) p q := by
  induction l using popWhile.induct p with
  | case1 b a rest hcond ih =>
      rw [popWhile, if_pos hcond]
      have hab : lexLeP a b := (List.chain'_cons.mp hsorted).1
      have hbp : lexLeP b p := hbound b (List.mem_cons_self b _)
      have hap : lexLeP a p := hbound a (List.mem_cons_of_mem b (List.mem_cons_self a _))
      have hcross : 0 ≤ hullCross a p b := by
        rw [hullCross_swap]
        linarith
      apply ih hsorted.tail (fun x hx => hbound x (List.mem_cons_of_mem b hx))
      -- re-home the coverage from the stack `b :: a :: rest` to `a :: rest`
      rcases hq with (⟨pr, hpr, habove⟩ | ⟨v, hv, habove⟩) | ⟨h, hh, habove⟩
      · rw [List.tail_cons, List.zip_cons_cons, List.mem_cons] at hpr
        rcases hpr with hpr | hpr
        · -- the popped top pair (b, a)
          subst hpr
          right
          refine ⟨a, rfl, ?_⟩
          exact above_transfer (lexLeP_refl a) hab hap hbp
            (le_of_eq (hullCross_self_mid a p).symm) hcross habove
        · -- a pair further down the stack
          left
          left
          exact ⟨pr, hpr, habove⟩
      · rcases List.mem_cons.mp hv with hv | hv
        · -- the popped vertex b
          subst hv
          right
          refine ⟨a, rfl, ?_⟩
          exact above_transfer hab hab hbp hbp hcross hcross habove
        · left
          right
          exact ⟨v, hv, habove⟩
      · -- the virtual edge from b to p
        rw [List.head?_cons, Option.some_inj] at hh
        subst hh
        right
        refine ⟨a, rfl, ?_⟩
        exact above_transfer hab hap hbp (lexLeP_refl p) hcross
          (le_of_eq (hullCross_self_right a p).symm) habove
  | case2 b a rest hcond =>
      rwa [popWhile, if_neg hcond]
  | case3 l hl =>
      rwa [popWhile_eq_of_short p l hl]

/-- Pushing the pending point turns pop-phase coverage into stack
coverage. -/
theorem chainStep_covP (p q : Pt) (l : List Pt)
    (hq : CovP (popWhile p l) p q) : ChainCov (chainStep l p) q := by
  rw [chainStep]
  rcases hq with hcov | ⟨h, hh, habove⟩
  · exact chainCov_cons p _ q hcov
  · left
    refine ⟨(p, h), ?_, habove⟩
    cases hl' : popWhile p l with
    | nil => rw [hl'] at hh; simp at hh
    | cons h' t =>
        rw [hl'] at hh
        rw [List.head?_cons, Option.some_inj] at hh
        subst hh
        rw [List.tail_cons, List.zip_cons_cons]
        exact List.mem_cons_self _ _

theorem chainStep_cov_self (p : Pt) (l : List Pt) : ChainCov (chainStep l p) p :=
  Or.inr ⟨p, List.mem_cons_self p _, above_self p⟩

theorem chainStep_chain' (p : Pt) (l : List Pt)
    (hsorted : List.Chain' (fun x y => lexLeP y x) l)
    (hbound : ∀ x ∈ l, lexLeP x p) :
    List.Chain' (fun x y => lexLeP y x) (chainStep l p) := by
  rw [chainStep, List.chain'_cons']
  refine ⟨?_, popWhile_chain' p l hsorted⟩
  intro y hy
  exact hbound y (popWhile_subset p l y (List.mem_of_mem_head? hy))

end Stamp

namespace Stamp

theorem buildChain_concat (pts : List Pt) (p : Pt) :
    buildChain (pts ++ [p]) = chainStep (buildChain pts) p := by
  rw [buildChain, buildChain, List.foldl_concat]

/-- The full invariant of one half-hull scan over a sorted point list:
every scanned point is covered by the stack, the stack is sorted
(head-first descending), and the stack is a subset of the scanned
points. -/
theorem buildChain_inv (pts : List Pt) (hsorted : List.Pairwise lexLeP pts) :
    (∀ q ∈ pts, ChainCov (buildChain pts) q) ∧
      List.Chain' (fun x y => lexLeP y x) (buildChain pts) ∧
      ∀ x ∈ buildChain pts, x ∈ pts := by
  induction pts using List.reverseRecOn with
  | nil =>
      refine ⟨fun q hq => absurd hq (List.not_mem_nil q), List.chain'_nil, fun x hx => ?_⟩
      simp [buildChain] at hx
  | append_singleton l p ih =>
      rw [List.pairwise_append] at hsorted
      obtain ⟨hl, _, hlp⟩ := hsorted
      have hbound : ∀ x ∈ l, lexLeP x p := fun x hx => hlp x hx p (List.mem_singleton_self p)
      obtain ⟨ihcov, ihchain, ihsub⟩ := ih hl
      have hbound' : ∀ x ∈ buildChain l, lexLeP x p := fun x hx => hbound x (ihsub x hx)
      rw [buildChain_concat]
      refine ⟨?_, chainStep_chain' p _ ihchain hbound', ?_⟩
      · intro q hq
        rcases List.mem_append.mp hq with hq | hq
        · exact chainStep_covP p q _
            (popWhile_covP p q _ ihchain hbound' (Or.inl (ihcov q hq)))
        · rw [List.mem_singleton] at hq
          subst hq
          exact chainStep_cov_self q _
      · intro x hx
        rw [chainStep, List.mem_cons] at hx
        rcases hx with hx | hx
        · subst hx
          exact List.mem_append_right l (List.mem_singleton_self x)
        · exact List.mem_append_left _ (ihsub x (popWhile_subset p _ x hx))

theorem buildChain_ne_nil (pts : List Pt) (h : pts ≠ []) : buildChain pts ≠ [] := by
  induction pts using List.reverseRecOn with
  | nil => exact absurd rfl h
  | append_singleton l p _ =>
      rw [buildChain_concat, chainStep]
      exact List.cons_ne_nil p _

theorem buildChain_head? (pts : List Pt) (h : pts ≠ []) :
    (buildChain pts).head? = pts.getLast? := by
  induction pts using List.reverseRecOn with
  | nil => exact absurd rfl h
  | append_singleton l p _ =>
      rw [buildChain_concat, chainStep, List.head?_cons, List.getLast?_concat]

theorem buildChain_getLast? (pts : List Pt) :
    (buildChain pts).getLast? = pts.head? := by
  induction pts using List.reverseRecOn with
  | nil => rfl
  | append_singleton l p ih =>
      rw [buildChain_concat, chainStep]
      rcases eq_or_ne l [] with hl | hl
      · subst hl
        rfl
      · have h1 : buildChain l ≠ [] := buildChain_ne_nil l hl
        have h2 : popWhile p (buildChain l) ≠ [] := popWhile_ne_nil p _ h1
        cases hpl : popWhile p (buildChain l) with
        | nil => exact absurd hpl h2
        | cons x t =>
            rw [List.getLast?_cons_cons, ← hpl, popWhile_getLast?, ih]
            cases l with
            | nil => exact absurd rfl hl
            | cons z t2 => rw [List.cons_append, List.head?_cons, List.head?_cons]

theorem buildChain_length (pts : List Pt) (h : 2 ≤ pts.length) :
    2 ≤ (buildChain pts).length := by
  induction pts using List.reverseRecOn with
  | nil => simp at h
  | append_singleton l p _ =>
      have hl : l ≠ [] := by
        intro he
        subst he
        simp at h
      rw [buildChain_concat, chainStep]
      have h2 : popWhile p (buildChain l) ≠ [] :=
        popWhile_ne_nil p _ (buildChain_ne_nil l hl)
      have : 1 ≤ (popWhile p (buildChain l)).length := by
        cases hpl : popWhile p (buildChain l) with
        | nil => exact absurd hpl h2
        | cons x t => simp
      rw [List.length_cons]
      omega

end Stamp

namespace Stamp

/-- Point reflection through the origin; it reverses the lexicographic
order and preserves orientation, turning the upper-hull scan into a
lower-hull scan. -/
def negP (p : Pt) : Pt := ⟨-p.x, -p.y, p.pressure, p.timestamp⟩

theorem hullCross_negP (o p q : Pt) :
    hullCross (negP o) (negP p) (negP q) = hullCross o p q := by
  simp only [hullCross, negP]
  ring

theorem lexLeP_negP {a b : Pt} : lexLeP (negP b) (negP a) ↔ lexLeP a b := by
  simp only [lexLeP, negP]
  constructor
  · rintro (h | ⟨he, hy⟩)
    · exact Or.inl (by linarith)
    · exact Or.inr ⟨by linarith, by linarith⟩
  · rintro (h | ⟨he, hy⟩)
    · exact Or.inl (by linarith)
    · exact Or.inr ⟨by linarith, by linarith⟩

theorem popWhile_negP (p : Pt) (l : List Pt) :
    popWhile (negP p) (l.map negP) = (popWhile p l).map negP := by
  induction l using popWhile.induct p with
  | case1 b a rest hcond ih =>
      simp only [List.map_cons]
      rw [popWhile, if_pos (by rw [hullCross_negP]; exact hcond)]
      rw [show negP a :: rest.map negP = (a :: rest).map negP from rfl, ih]
      rw [popWhile, if_pos hcond]
  | case2 b a rest hcond =>
      simp only [List.map_cons]
      rw [popWhile, if_neg (by rw [hullCross_negP]; exact hcond)]
      rw [popWhile, if_neg hcond]
      simp
  | case3 l hl =>
      rw [popWhile_eq_of_short p l hl]
      apply popWhile_eq_of_short
      intro b a rest hmap
      match l, hl with
      | [], hl => simp at hmap
      | [x], hl => simp at hmap
      | x :: y :: t, hl => exact hl x y t rfl

theorem buildChain_negP (pts : List Pt) :
    buildChain (pts.map negP) = (buildChain pts).map negP := by
  induction pts using List.reverseRecOn with
  | nil => rfl
  | append_singleton l p ih =>
      rw [List.map_append, show [p].map negP = [negP p] from rfl,
        buildChain_concat, buildChain_concat, chainStep, chainStep, ih,
        popWhile_negP p (buildChain l), List.map_cons]

theorem above_negP {u v q : Pt} : Above (negP u) (negP v) (negP q) ↔ Below u v q := by
  simp only [Above, Below, negP]
  constructor
  · rintro ⟨t, h0, h1, hx, hy⟩
    exact ⟨t, h0, h1, by linarith, by linarith⟩
  · rintro ⟨t, h0, h1, hx, hy⟩
    exact ⟨t, h0, h1, by linarith, by linarith⟩

/-- Coverage of a query point from below, by an adjacent pair or vertex
of a stack. -/
def BelowCov (l : List Pt) (q : Pt) : Prop :=
  (∃ pr ∈ l.zip l.tail, Below pr.2 pr.1 q) ∨ ∃ v ∈ l, Below v v q

theorem belowCov_of_chainCov_negP (l : List Pt) (q : Pt)
    (h : ChainCov (l.map negP) (negP q)) : BelowCov l q := by
  rcases h with ⟨pr, hpr, habove⟩ | ⟨v, hv, habove⟩
  · rw [show (l.map negP).tail = l.tail.map negP by cases l <;> rfl,
      List.zip_map, List.mem_map] at hpr
    obtain ⟨⟨b, a⟩, hba, hpr⟩ := hpr
    left
    refine ⟨(b, a), hba, ?_⟩
    rw [← hpr] at habove
    exact above_negP.mp habove
  · rw [List.mem_map] at hv
    obtain ⟨w, hw, hv⟩ := hv
    right
    refine ⟨w, hw, ?_⟩
    rw [← hv] at habove
    exact above_negP.mp habove

/-- Subset property of a half-hull scan, with no sortedness hypothesis. -/
theorem buildChain_subset (pts : List Pt) : ∀ x ∈ buildChain pts, x ∈ pts := by
  induction pts using List.reverseRecOn with
  | nil => intro x hx; simp [buildChain] at hx
  | append_singleton l p ih =>
      intro x hx
      rw [buildChain_concat, chainStep, List.mem_cons] at hx
      rcases hx with hx | hx
      · subst hx
        exact List.mem_append_right l (List.mem_singleton_self x)
      · exact List.mem_append_left _ (ih x (popWhile_subset p _ x hx))

/-- Every input point is covered from below by the upper-hull stack. -/
theorem upper_cov (pts : List Pt) (hsorted : List.Pairwise lexLeP pts) :
    ∀ q ∈ pts, BelowCov (buildChain pts.reverse) q := by
  have hrev : List.Pairwise (fun a b => lexLeP b a) pts.reverse :=
    List.pairwise_reverse.mpr hsorted
  have hsorted' : List.Pairwise lexLeP (pts.reverse.map negP) :=
    List.Pairwise.map negP (fun a b hab => lexLeP_negP.mpr hab) hrev
  obtain ⟨cov, _, _⟩ := buildChain_inv (pts.reverse.map negP) hsorted'
  intro q hq
  have hq' : negP q ∈ pts.reverse.map negP :=
    List.mem_map_of_mem negP (List.mem_reverse.mpr hq)
  have hc := cov (negP q) hq'
  rw [buildChain_negP] at hc
  exact belowCov_of_chainCov_negP _ q hc

end Stamp

theorem mergeSort_pairwise_lexLeP (points : List Stamp.Pt) :
    List.Pairwise Stamp.lexLeP (points.mergeSort Stamp.lexLe) := by
  have htrans : ∀ a b c : Stamp.Pt, Stamp.lexLe a b = true → Stamp.lexLe b c = true →
      Stamp.lexLe a c = true := by
    intro a b c hab hbc
    rw [Stamp.lexLe_iff] at hab hbc ⊢
    exact Stamp.lexLeP_trans hab hbc
  have htotal : ∀ a b : Stamp.Pt, (Stamp.lexLe a b || Stamp.lexLe b a) = true := by
    intro a b
    rw [Bool.or_eq_true, Stamp.lexLe_iff, Stamp.lexLe_iff]
    exact Stamp.lexLeP_total a b
  exact (List.sorted_mergeSort htrans htotal points).imp fun h => (Stamp.lexLe_iff _ _).mp h

/-- Every point of either half-hull stack is a member of the final hull
output (the duplicated extreme points dropped from one chain reappear in
the other chain). -/
theorem mem_hull_output (points : List Stamp.Pt) (h3 : ¬points.length < 3) (x : Stamp.Pt)
    (hx : x ∈ Stamp.buildChain (points.mergeSort Stamp.lexLe) ∨
      x ∈ Stamp.buildChain (points.mergeSort Stamp.lexLe).reverse) :
    x ∈ Stamp.convexHull points := by
  have hplen : 3 ≤ points.length := by omega
  have hlen : (points.mergeSort Stamp.lexLe).length = points.length :=
    List.length_mergeSort points
  have hsne : points.mergeSort Stamp.lexLe ≠ [] := by
    intro h
    rw [h] at hlen
    simp at hlen
    omega
  have hlow2 : 2 ≤ (Stamp.buildChain (points.mergeSort Stamp.lexLe)).length :=
    Stamp.buildChain_length _ (by omega)
  have hup2 : 2 ≤ (Stamp.buildChain (points.mergeSort Stamp.lexLe).reverse).length :=
    Stamp.buildChain_length _ (by rw [List.length_reverse]; omega)
  rw [Stamp.convexHull, if_neg h3]
  cases hlow : Stamp.buildChain (points.mergeSort Stamp.lexLe) with
  | nil => rw [hlow] at hlow2; simp at hlow2
  | cons hl tl =>
  cases hup : Stamp.buildChain (points.mergeSort Stamp.lexLe).reverse with
  | nil => rw [hup] at hup2; simp at hup2
  | cons hu tu =>
  have htl : tl ≠ [] := by
    rw [hlow] at hlow2
    intro h
    rw [h] at hlow2
    simp at hlow2
  have htu : tu ≠ [] := by
    rw [hup] at hup2
    intro h
    rw [h] at hup2
    simp at hup2
  have hlowdrop : (hl :: tl).reverse.dropLast = tl.reverse := by
    rw [List.reverse_cons, List.dropLast_concat]
  have hupdrop : (hu :: tu).reverse.dropLast = tu.reverse := by
    rw [List.reverse_cons, List.dropLast_concat]
  simp only [hlow, hup, hlowdrop, hupdrop]
  rcases hx with hx | hx
  · rw [hlow] at hx
    rcases List.mem_cons.mp hx with hx | hx
    · -- x is the top of the lower stack, i.e. the lexicographic maximum;
      -- it is the bottom of the upper stack, which survives in `tu`
      subst hx
      apply List.mem_append_right
      rw [List.mem_reverse]
      have h1 := Stamp.buildChain_head? (points.mergeSort Stamp.lexLe) hsne
      rw [hlow, List.head?_cons] at h1
      have h2 := Stamp.buildChain_getLast? (points.mergeSort Stamp.lexLe).reverse
      rw [hup, List.head?_reverse] at h2
      have hlast : (hu :: tu).getLast? = some x := by rw [h2, ← h1]
      cases tu with
      | nil => exact absurd rfl htu
      | cons y t =>
          rw [List.getLast?_cons_cons] at hlast
          exact List.mem_of_mem_getLast? hlast
    · exact List.mem_append_left _ (List.mem_reverse.mpr hx)
  · rw [hup] at hx
    rcases List.mem_cons.mp hx with hx | hx
    · -- x is the top of the upper stack, i.e. the lexicographic minimum;
      -- it is the bottom of the lower stack, which survives in `tl`
      subst hx
      apply List.mem_append_left
      rw [List.mem_reverse]
      have h1 := Stamp.buildChain_head? (points.mergeSort Stamp.lexLe).reverse
        (by simpa using hsne)
      rw [hup, List.head?_cons, List.getLast?_reverse] at h1
      have h2 := Stamp.buildChain_getLast? (points.mergeSort Stamp.lexLe)
      rw [hlow] at h2
      have hlast : (hl :: tl).getLast? = some x := by rw [h2, ← h1]
      cases tl with
      | nil => exact absurd rfl htl
      | cons y t =>
          rw [List.getLast?_cons_cons] at hlast
          exact List.mem_of_mem_getLast? hlast
    · exact List.mem_append_right _ (List.mem_reverse.mpr hx)

theorem segment_point_mem_convexHull {a b : Stamp.Pt} {S : Set (ℚ × ℚ)} (t : ℚ)
    (ht0 : 0 ≤ t) (ht1 : t ≤ 1)
    (ha : Stamp.toVec a ∈ S) (hb : Stamp.toVec b ∈ S) :
    ((1 - t) * a.x + t * b.x, (1 - t) * a.y + t * b.y) ∈ convexHull ℚ S := by
  have h := (convex_convexHull ℚ S) (subset_convexHull ℚ S ha) (subset_convexHull ℚ S hb)
    (by linarith : (0:ℚ) ≤ 1 - t) ht0 (by ring)
  have heq : (1 - t) • Stamp.toVec a + t • Stamp.toVec b
      = ((1 - t) * a.x + t * b.x, (1 - t) * a.y + t * b.y) := by
    simp [Stamp.toVec, Prod.ext_iff, smul_eq_mul]
  rwa [heq] at h

/-- A point directly above one segment of `S`-points and directly below
another lies in the convex hull of `S`. -/
theorem mem_convexHull_of_above_below {a b c d q : Stamp.Pt} {S : Set (ℚ × ℚ)}
    (ha : Stamp.toVec a ∈ S) (hb : Stamp.toVec b ∈ S)
    (hc : Stamp.toVec c ∈ S) (hd : Stamp.toVec d ∈ S)
    (hab : Stamp.Above a b q) (hcd : Stamp.Below c d q) :
    Stamp.toVec q ∈ convexHull ℚ S := by
  obtain ⟨t, ht0, ht1, hx1, hy1⟩ := hab
  obtain ⟨u, hu0, hu1, hx2, hy2⟩ := hcd
  have hs1 := segment_point_mem_convexHull t ht0 ht1 ha hb
  have hs2 := segment_point_mem_convexHull u hu0 hu1 hc hd
  set y1 := (1 - t) * a.y + t * b.y with hy1def
  set y2 := (1 - u) * c.y + u * d.y with hy2def
  rcases eq_or_lt_of_le (le_trans hy1 hy2) with hD | hD
  · -- the two heights coincide, so q equals the lower segment point
    have hqy : q.y = y1 := by
      have := le_antisymm (le_trans hy2 (le_of_eq hD.symm)) hy1
      linarith
    have hq : Stamp.toVec q = ((1 - t) * a.x + t * b.x, y1) := by
      rw [Stamp.toVec, Prod.ext_iff]
      exact ⟨hx1.symm, hqy⟩
    rw [hq]
    exact hs1
  · -- interpolate vertically between the two segment points
    have hDpos : 0 < y2 - y1 := by linarith
    set μ := (q.y - y1) / (y2 - y1) with hμdef
    have hμ0 : 0 ≤ μ := div_nonneg (by linarith) hDpos.le
    have hμ1 : μ ≤ 1 := by
      rw [hμdef, div_le_one hDpos]
      linarith
    have h := (convex_convexHull ℚ S) hs1 hs2
      (by linarith : (0:ℚ) ≤ 1 - μ) hμ0 (by ring)
    have heq : (1 - μ) • (((1 - t) * a.x + t * b.x, y1) : ℚ × ℚ)
        + μ • (((1 - u) * c.x + u * d.x, y2) : ℚ × ℚ) = Stamp.toVec q := by
      rw [Stamp.toVec, Prod.ext_iff]
      constructor
      · simp only [Prod.fst_add, Prod.smul_fst, smul_eq_mul]
        rw [hx1, hx2]
        ring
      · simp only [Prod.snd_add, Prod.smul_snd, smul_eq_mul]
        rw [hμdef]
        field_simp
        ring
    rwa [heq] at h

/-- Containment half of hull correctness: every input point lies in the
convex hull (in the standard mathematical sense) of the points returned
by `convexHull`. -/
theorem input_subset_convexHull_output (points : List Stamp.Pt) :
    ∀ q ∈ points, Stamp.toVec q ∈
      convexHull ℚ (Stamp.toVec '' {p | p ∈ Stamp.convexHull points}) := by
  intro q hq
  by_cases h3 : points.length < 3
  · apply subset_convexHull
    refine ⟨q, ?_, rfl⟩
    rw [Set.mem_setOf_eq, Stamp.convexHull, if_pos h3]
    exact hq
  · have hpair : List.Pairwise Stamp.lexLeP (points.mergeSort Stamp.lexLe) :=
      mergeSort_pairwise_lexLeP points
    have hqsorted : q ∈ points.mergeSort Stamp.lexLe := List.mem_mergeSort.mpr hq
    obtain ⟨lowcov, -, -⟩ := Stamp.buildChain_inv (points.mergeSort Stamp.lexLe) hpair
    have hlow := lowcov q hqsorted
    have hup := Stamp.upper_cov (points.mergeSort Stamp.lexLe) hpair q hqsorted
    obtain ⟨a, b, hal, hbl, hab⟩ : ∃ a b, a ∈ Stamp.buildChain (points.mergeSort Stamp.lexLe) ∧
        b ∈ Stamp.buildChain (points.mergeSort Stamp.lexLe) ∧ Stamp.Above a b q := by
      rcases hlow with ⟨⟨b', a'⟩, hpr, habove⟩ | ⟨v, hv, habove⟩
      · obtain ⟨h1, h2⟩ := List.of_mem_zip hpr
        exact ⟨a', b', List.mem_of_mem_tail h2, h1, habove⟩
      · exact ⟨v, v, hv, hv, habove⟩
    obtain ⟨c, d, hcu, hdu, hcd⟩ : ∃ c d,
        c ∈ Stamp.buildChain (points.mergeSort Stamp.lexLe).reverse ∧
        d ∈ Stamp.buildChain (points.mergeSort Stamp.lexLe).reverse ∧ Stamp.Below c d q := by
      rcases hup with ⟨⟨d', c'⟩, hpr, hbelow⟩ | ⟨v, hv, hbelow⟩
      · obtain ⟨h1, h2⟩ := List.of_mem_zip hpr
        exact ⟨c', d', List.mem_of_mem_tail h2, h1, hbelow⟩
      · exact ⟨v, v, hv, hv, hbelow⟩
    have hmem : ∀ x, (x ∈ Stamp.buildChain (points.mergeSort Stamp.lexLe) ∨
        x ∈ Stamp.buildChain (points.mergeSort Stamp.lexLe).reverse) →
        Stamp.toVec x ∈ Stamp.toVec '' {p | p ∈ Stamp.convexHull points} := by
      intro x hx
      exact ⟨x, mem_hull_output points h3 x hx, rfl⟩
    exact mem_convexHull_of_above_below (hmem a (Or.inl hal)) (hmem b (Or.inl hbl))
      (hmem c (Or.inr hcu)) (hmem d (Or.inr hdu)) hab hcd

/-- Subset half of hull correctness: `convexHull` returns only members
of its input. -/
theorem hull_subset_input (points : List Stamp.Pt) :
    ∀ q ∈ Stamp.convexHull points, q ∈ points := by
  intro q hq
  by_cases h3 : points.length < 3
  · rwa [Stamp.convexHull, if_pos h3] at hq
  · rw [Stamp.convexHull, if_neg h3] at hq
    rcases List.mem_append.mp hq with hx | hx
    · have h1 : q ∈ (Stamp.buildChain (points.mergeSort Stamp.lexLe)).reverse :=
        (List.dropLast_sublist _).mem hx
      have h2 := Stamp.buildChain_subset _ q (List.mem_reverse.mp h1)
      exact List.mem_mergeSort.mp h2
    · have h1 : q ∈ (Stamp.buildChain (points.mergeSort Stamp.lexLe).reverse).reverse :=
        (List.dropLast_sublist _).mem hx
      have h2 := Stamp.buildChain_subset _ q (List.mem_reverse.mp h1)
      exact List.mem_mergeSort.mp (List.mem_reverse.mp h2)

namespace Stamp

theorem hullCross_T1 (a b c d : Pt) :
    hullCross a b d * (c.x - b.x) =
      hullCross b c d * (b.x - a.x) + hullCross a b c * (d.x - b.x) := by
  simp only [hullCross]
  ring

theorem hullCross_T2 (a b c d : Pt) :
    hullCross a c d * (c.x - b.x) =
      hullCross a b c * (d.x - c.x) + hullCross b c d * (c.x - a.x) := by
  simp only [hullCross]
  ring

/-- Strict turn with both later points lexicographically after the first
forces a strict x-step on the first edge. -/
theorem x_lt_of_cross_pos {x y z : Pt} (hxy : lexLeP x y) (hyz : lexLeP y z)
    (h : 0 < hullCross x y z) : x.x < y.x := by
  rcases lt_or_eq_of_le (lexLeP_x hxy) with hlt | heq
  · exact hlt
  · exfalso
    have hyy : x.y ≤ y.y := lexLeP_y_of_eq_x hxy heq
    have hzz : x.x ≤ z.x := le_trans (le_of_eq heq) (lexLeP_x hyz)
    have : hullCross x y z = -((y.y - x.y) * (z.x - x.x)) := by
      simp only [hullCross, ← heq]
      ring
    nlinarith

/-- All triples drawn from a half-hull stack (read top-down, i.e. in
reverse scan order) make strict counter-clockwise turns. -/
def StrictStack (l : List Pt) : Prop :=
  ∀ c b a : Pt, [c, b, a].Sublist l → 0 < hullCross a b c

theorem strictStack_of_sublist {l l' : List Pt} (h : l'.Sublist l)
    (hs : StrictStack l) : StrictStack l' :=
  fun c b a ht => hs c b a (ht.trans h)

theorem popWhile_sublist (p : Pt) (l : List Pt) : (popWhile p l).Sublist l := by
  induction l using popWhile.induct p with
  | case1 b a rest hcond ih =>
      rw [popWhile, if_pos hcond]
      exact ih.trans (List.sublist_cons_self b (a :: rest))
  | case2 b a rest hcond =>
      rw [popWhile, if_neg hcond]
  | case3 l hl =>
      rw [popWhile_eq_of_short p l hl]

theorem popWhile_stop (p : Pt) (l : List Pt) :
    popWhile p l = [] ∨ (∃ x, popWhile p l = [x]) ∨
      ∃ b a rest, popWhile p l = b :: a :: rest ∧ 0 < hullCross a b p := by
  induction l using popWhile.induct p with
  | case1 b a rest hcond ih =>
      rw [popWhile, if_pos hcond]
      exact ih
  | case2 b a rest hcond =>
      refine Or.inr (Or.inr ⟨b, a, rest, ?_, by linarith⟩)
      rw [popWhile, if_neg hcond]
  | case3 l hl =>
      rw [popWhile_eq_of_short p l hl]
      match l, hl with
      | [], _ => exact Or.inl rfl
      | [x], _ => exact Or.inr (Or.inl ⟨x, rfl⟩)
      | x :: y :: t, hl => exact (hl x y t rfl).elim

instance : IsTrans Pt (fun x y => lexLeP y x) :=
  ⟨fun _ _ _ h1 h2 => lexLeP_trans h2 h1⟩

theorem stack_pairwise {l : List Pt} (h : List.Chain' (fun x y => lexLeP y x) l) :
    List.Pairwise (fun x y => lexLeP y x) l :=
  List.chain'_iff_pairwise.mp h

/-- Every pair drawn from the stack makes a strict turn with the pending
point once the pop phase has stopped: the top pair does by the stop
condition, and the rest follow by the two determinant identities. -/
theorem pairsWith (p : Pt) (l : List Pt) :
    StrictStack l → List.Chain' (fun x y => lexLeP y x) l → (∀ x ∈ l, lexLeP x p) →
    (∀ b a rest, l = b :: a :: rest → 0 < hullCross a b p) →
    ∀ u v : Pt, [u, v].Sublist l → 0 < hullCross v u p := by
  induction l with
  | nil =>
      intro _ _ _ _ u v huv
      rw [List.sublist_nil] at huv
      cases huv
  | cons s₀ rest ih =>
      intro hstrict hsort hbound htop u v huv
      have hpair := stack_pairwise hsort
      cases huv with
      | cons _ h =>
          -- the pair lies entirely inside `rest`
          apply ih (strictStack_of_sublist (List.sublist_cons_self s₀ rest) hstrict)
            hsort.tail (fun x hx => hbound x (List.mem_cons_of_mem s₀ hx)) ?_ u v h
          -- top condition for `rest`, by the T1 identity
          intro b a rest₂ hrest
          subst hrest
          have htop₀ : 0 < hullCross b s₀ p := htop s₀ b (a :: rest₂) rfl
          have htriple : 0 < hullCross a b s₀ := by
            apply hstrict s₀ b a
            exact List.Sublist.cons₂ s₀ (List.Sublist.cons₂ b
              (List.singleton_sublist.mpr (List.mem_cons_self a rest₂)))
          have hbs : lexLeP b s₀ := (List.chain'_cons.mp hsort).1
          have hab : lexLeP a b := (List.chain'_cons.mp hsort.tail).1
          have hs₀p : lexLeP s₀ p := hbound s₀ (List.mem_cons_self s₀ _)
          have hbx : b.x < s₀.x := x_lt_of_cross_pos hbs hs₀p htop₀
          have hpx : b.x < p.x := lt_of_lt_of_le hbx (lexLeP_x hs₀p)
          have habx : a.x ≤ b.x := lexLeP_x hab
          have hT1 := hullCross_T1 a b s₀ p
          nlinarith [mul_nonneg (le_of_lt htop₀) (sub_nonneg.mpr habx)]
      | cons₂ _ h =>
          -- the pair starts at the stack top
          cases rest with
          | nil =>
              rw [List.sublist_nil] at h
              cases h
          | cons s₁ rest₂ =>
              have htop₀ : 0 < hullCross s₁ s₀ p := htop s₀ s₁ rest₂ rfl
              have hs₁s₀ : lexLeP s₁ s₀ := (List.chain'_cons.mp hsort).1
              have hs₀p : lexLeP s₀ p := hbound s₀ (List.mem_cons_self s₀ _)
              have hs₁x : s₁.x < s₀.x := x_lt_of_cross_pos hs₁s₀ hs₀p htop₀
              cases h with
              | cons₂ _ h2 =>
                  -- v = s₁: exactly the stop condition
                  exact htop₀
              | cons _ h2 =>
                  -- v lies deeper in the stack: the T2 identity
                  have hv : v ∈ rest₂ := List.singleton_sublist.mp h2
                  have htriple : 0 < hullCross v s₁ s₀ := by
                    apply hstrict s₀ s₁ v
                    exact List.Sublist.cons₂ s₀ (List.Sublist.cons₂ s₁
                      (List.singleton_sublist.mpr hv))
                  have hvs₁ : lexLeP v s₁ := by
                    have := List.pairwise_cons.mp (List.pairwise_cons.mp hpair).2
                    exact this.1 v hv
                  have hvx : v.x < s₀.x := lt_of_le_of_lt (lexLeP_x hvs₁) hs₁x
                  have hpx : s₀.x ≤ p.x := lexLeP_x hs₀p
                  have hT2 := hullCross_T2 v s₁ s₀ p
                  nlinarith [mul_nonneg (le_of_lt htriple) (sub_nonneg.mpr hpx)]

end Stamp

namespace Stamp

theorem chainStep_strict (p : Pt) (l : List Pt)
    (hstrict : StrictStack l)
    (hsort : List.Chain' (fun x y => lexLeP y x) l)
    (hbound : ∀ x ∈ l, lexLeP x p) :
    StrictStack (chainStep l p) := by
  rw [chainStep]
  intro c b a habc
  cases habc with
  | cons _ h =>
      exact strictStack_of_sublist (popWhile_sublist p l) hstrict c b a h
  | cons₂ _ h =>
      -- c = p and [b, a] is a pair of the popped stack
      apply pairsWith p (popWhile p l)
        (strictStack_of_sublist (popWhile_sublist p l) hstrict)
        (popWhile_chain' p l hsort)
        (fun x hx => hbound x (popWhile_subset p l x hx))
        ?_ b a h
      intro b' a' rest' heq
      rcases popWhile_stop p l with h0 | ⟨x, h1⟩ | ⟨b'', a'', rest'', h2, hcross⟩
      · rw [h0] at heq
        cases heq
      · rw [h1] at heq
        cases heq
      · rw [h2] at heq
        injection heq with e1 e2
        injection e2 with e2 e3
        subst e1
        subst e2
        exact hcross

theorem buildChain_strict (pts : List Pt) (hsorted : List.Pairwise lexLeP pts) :
    StrictStack (buildChain pts) := by
  induction pts using List.reverseRecOn with
  | nil =>
      intro c b a h
      rw [show buildChain [] = [] from rfl, List.sublist_nil] at h
      cases h
  | append_singleton l p ih =>
      rw [List.pairwise_append] at hsorted
      obtain ⟨hl, _, hlp⟩ := hsorted
      have hbound : ∀ x ∈ l, lexLeP x p := fun x hx => hlp x hx p (List.mem_singleton_self p)
      obtain ⟨-, ihchain, ihsub⟩ := buildChain_inv l hl
      rw [buildChain_concat]
      exact chainStep_strict p (buildChain l) (ih hl) ihchain
        (fun x hx => hbound x (ihsub x hx))

/-- Transport of stack strictness through the point reflection: the
upper-hull stack (built over the reverse-sorted list) is also strict. -/
theorem upper_strict (pts : List Pt) (hsorted : List.Pairwise lexLeP pts) :
    StrictStack (buildChain pts.reverse) := by
  have hrev : List.Pairwise (fun a b => lexLeP b a) pts.reverse :=
    List.pairwise_reverse.mpr hsorted
  have hsorted' : List.Pairwise lexLeP (pts.reverse.map negP) :=
    List.Pairwise.map negP (fun a b hab => lexLeP_negP.mpr hab) hrev
  have hstrict := buildChain_strict (pts.reverse.map negP) hsorted'
  rw [buildChain_negP] at hstrict
  intro c b a h
  have h' := hstrict (negP c) (negP b) (negP a)
    (by simpa using List.Sublist.map negP h)
  rw [hullCross_negP] at h'
  exact h'

/-- The upper-hull stack is sorted head-first ascending. -/
theorem upper_chain' (pts : List Pt) (hsorted : List.Pairwise lexLeP pts) :
    List.Chain' (fun x y => lexLeP x y) (buildChain pts.reverse) := by
  have hrev : List.Pairwise (fun a b => lexLeP b a) pts.reverse :=
    List.pairwise_reverse.mpr hsorted
  have hsorted' : List.Pairwise lexLeP (pts.reverse.map negP) :=
    List.Pairwise.map negP (fun a b hab => lexLeP_negP.mpr hab) hrev
  obtain ⟨-, hchain, -⟩ := buildChain_inv (pts.reverse.map negP) hsorted'
  rw [buildChain_negP] at hchain
  -- un-map the chain property
  have key : ∀ (m : List Pt), List.Chain' (fun x y => lexLeP y x) (m.map negP) →
      List.Chain' (fun x y => lexLeP x y) m := by
    intro m
    induction m with
    | nil => intro _; exact List.chain'_nil
    | cons x t iht =>
        intro hm
        cases t with
        | nil => exact List.chain'_singleton x
        | cons y t2 =>
            rw [List.map_cons, List.map_cons, List.chain'_cons] at hm
            rw [List.chain'_cons]
            exact ⟨lexLeP_negP.mp hm.1, iht (by rw [List.map_cons]; exact hm.2)⟩
  exact key _ hchain

end Stamp

namespace Stamp

theorem hullCross_cyc (a b c : Pt) : hullCross a b c = hullCross b c a := by
  simp only [hullCross]
  ring

theorem hullCross_degen_right (a b : Pt) : hullCross a b b = 0 := by
  simp only [hullCross]
  ring

theorem hullCross_degen_outer (a b : Pt) : hullCross a b a = 0 := by
  simp only [hullCross]
  ring

/-- A point above a segment whose endpoints are on the non-negative side
of a left-to-right line is itself on the non-negative side. -/
theorem aboveLine_of_above {u v a b q : Pt} (hux : u.x ≤ v.x)
    (ha : 0 ≤ hullCross u v a) (hb : 0 ≤ hullCross u v b) (hq : Above a b q) :
    0 ≤ hullCross u v q := by
  obtain ⟨t, ht0, ht1, hx, hy⟩ := hq
  have key : hullCross u v q = (1 - t) * hullCross u v a + t * hullCross u v b
      + (v.x - u.x) * (q.y - ((1 - t) * a.y + t * b.y)) := by
    simp only [hullCross]
    rw [← hx]
    ring
  rw [key]
  have h1 := mul_nonneg (sub_nonneg.mpr hux) (sub_nonneg.mpr hy)
  have h2 := mul_nonneg (by linarith : (0:ℚ) ≤ 1 - t) ha
  have h3 := mul_nonneg ht0 hb
  linarith

/-- A point below a segment whose endpoints are on the non-negative side
of a right-to-left line is itself on the non-negative side. -/
theorem belowLine_of_below {u v a b q : Pt} (hux : v.x ≤ u.x)
    (ha : 0 ≤ hullCross u v a) (hb : 0 ≤ hullCross u v b) (hq : Below a b q) :
    0 ≤ hullCross u v q := by
  obtain ⟨t, ht0, ht1, hx, hy⟩ := hq
  have key : hullCross u v q = (1 - t) * hullCross u v a + t * hullCross u v b
      + (u.x - v.x) * (((1 - t) * a.y + t * b.y) - q.y) := by
    simp only [hullCross]
    rw [← hx]
    ring
  rw [key]
  have h1 := mul_nonneg (sub_nonneg.mpr hux) (sub_nonneg.mpr hy)
  have h2 := mul_nonneg (by linarith : (0:ℚ) ≤ 1 - t) ha
  have h3 := mul_nonneg ht0 hb
  linarith

/-- An adjacent pair of a list is a two-element sublist. -/
theorem pair_sublist_of_mem_zip {l : List Pt} {B A : Pt}
    (h : (B, A) ∈ l.zip l.tail) : [B, A].Sublist l := by
  induction l with
  | nil => simp at h
  | cons x xs ih =>
      cases xs with
      | nil => simp at h
      | cons y t =>
          rw [List.tail_cons, List.zip_cons_cons, List.mem_cons] at h
          rcases h with h | h
          · injection h with e1 e2
            subst e1
            subst e2
            exact List.Sublist.cons₂ B (List.Sublist.cons₂ A (List.nil_sublist t))
          · exact (ih h).trans (List.sublist_cons_self x (y :: t))

/-- Position of an arbitrary member relative to an adjacent pair. -/
theorem zip_pair_cases {l : List Pt} {B A w : Pt}
    (hpr : (B, A) ∈ l.zip l.tail) (hw : w ∈ l) :
    [w, B, A].Sublist l ∨ [B, A, w].Sublist l ∨ w = B ∨ w = A := by
  induction l with
  | nil => simp at hpr
  | cons x xs ih =>
      cases xs with
      | nil => simp at hpr
      | cons y t =>
          rw [List.tail_cons, List.zip_cons_cons, List.mem_cons] at hpr
          rcases hpr with hpr | hpr
          · injection hpr with e1 e2
            subst e1
            subst e2
            rcases List.mem_cons.mp hw with hw | hw
            · exact Or.inr (Or.inr (Or.inl hw))
            · rcases List.mem_cons.mp hw with hw | hw
              · exact Or.inr (Or.inr (Or.inr hw))
              · refine Or.inr (Or.inl ?_)
                exact List.Sublist.cons₂ B (List.Sublist.cons₂ A
                  (List.singleton_sublist.mpr hw))
          · rcases List.mem_cons.mp hw with hw | hw
            · subst hw
              exact Or.inl (List.Sublist.cons₂ w (pair_sublist_of_mem_zip hpr))
            · rcases ih hpr hw with h | h | h | h
              · exact Or.inl (h.trans (List.sublist_cons_self x (y :: t)))
              · exact Or.inr (Or.inl (h.trans (List.sublist_cons_self x (y :: t))))
              · exact Or.inr (Or.inr (Or.inl h))
              · exact Or.inr (Or.inr (Or.inr h))

end Stamp

namespace Stamp

theorem chain'_zip_rel {R : Pt → Pt → Prop} {l : List Pt} {B A : Pt}
    (h : List.Chain' R l) (hpr : (B, A) ∈ l.zip l.tail) : R B A := by
  induction l with
  | nil => simp at hpr
  | cons x xs ih =>
      cases xs with
      | nil => simp at hpr
      | cons y t =>
          rw [List.tail_cons, List.zip_cons_cons, List.mem_cons] at hpr
          rcases hpr with hpr | hpr
          · injection hpr with e1 e2
            subst e1
            subst e2
            exact (List.chain'_cons.mp h).1
          · exact ih h.tail hpr

/-- Every stack member is on the non-negative side of the line through
an adjacent stack pair (read as the forward edge from `A` to `B`). -/
theorem stack_pair_nonneg {l : List Pt} {B A : Pt}
    (hstrict : StrictStack l) (hpr : (B, A) ∈ l.zip l.tail) :
    ∀ w ∈ l, 0 ≤ hullCross A B w := by
  intro w hw
  rcases zip_pair_cases hpr hw with h | h | h | h
  · exact le_of_lt (hstrict w B A h)
  · have h2 := hstrict B A w h
    rw [hullCross_cyc w A B] at h2
    exact le_of_lt h2
  · subst h
    rw [hullCross_degen_right]
  · subst h
    rw [hullCross_degen_outer]

/-- Every input point is on the non-negative side of every lower-stack
edge line. -/
theorem input_aboveLine (pts : List Pt) (hsorted : List.Pairwise lexLeP pts)
    {B A : Pt} (hpr : (B, A) ∈ (buildChain pts).zip (buildChain pts).tail) :
    ∀ q ∈ pts, 0 ≤ hullCross A B q := by
  have hstrict := buildChain_strict pts hsorted
  obtain ⟨cov, hchain, -⟩ := buildChain_inv pts hsorted
  have hAB : lexLeP A B := @chain'_zip_rel (fun x y => lexLeP y x) _ B A hchain hpr
  intro q hq
  rcases cov q hq with ⟨⟨b', a'⟩, hpr', hab⟩ | ⟨v, hv, hvv⟩
  · obtain ⟨h1, h2⟩ := List.of_mem_zip hpr'
    exact aboveLine_of_above (lexLeP_x hAB)
      (stack_pair_nonneg hstrict hpr a' (List.mem_of_mem_tail h2))
      (stack_pair_nonneg hstrict hpr b' h1) hab
  · exact aboveLine_of_above (lexLeP_x hAB)
      (stack_pair_nonneg hstrict hpr v hv)
      (stack_pair_nonneg hstrict hpr v hv) hvv

/-- Every input point is on the non-negative side of every upper-stack
edge line (read as the forward edge from `A` down to `B`). -/
theorem input_belowLine (pts : List Pt) (hsorted : List.Pairwise lexLeP pts)
    {B A : Pt}
    (hpr : (B, A) ∈ (buildChain pts.reverse).zip (buildChain pts.reverse).tail) :
    ∀ q ∈ pts, 0 ≤ hullCross A B q := by
  have hrev : List.Pairwise (fun a b => lexLeP b a) pts.reverse :=
    List.pairwise_reverse.mpr hsorted
  have hsorted' : List.Pairwise lexLeP (pts.reverse.map negP) :=
    List.Pairwise.map negP (fun a b hab => lexLeP_negP.mpr hab) hrev
  intro q hq
  have hq' : negP q ∈ pts.reverse.map negP :=
    List.mem_map_of_mem negP (List.mem_reverse.mpr hq)
  have hpr' : (negP B, negP A) ∈
      (buildChain (pts.reverse.map negP)).zip (buildChain (pts.reverse.map negP)).tail := by
    rw [buildChain_negP]
    rw [show (List.map negP (buildChain pts.reverse)).tail
        = (buildChain pts.reverse).tail.map negP by cases buildChain pts.reverse <;> rfl]
    rw [List.zip_map]
    exact List.mem_map_of_mem (Prod.map negP negP) hpr
  have := input_aboveLine (pts.reverse.map negP) hsorted' hpr' (negP q) hq'
  rwa [hullCross_negP] at this

end Stamp

namespace Stamp

theorem mem_zip_tail_cons {l : List Pt} {pr : Pt × Pt} (x : Pt)
    (h : pr ∈ l.zip l.tail) : pr ∈ (x :: l).zip ((x :: l).tail) := by
  cases l with
  | nil => simp at h
  | cons y t =>
      rw [List.tail_cons]
      rw [List.tail_cons] at h
      rw [show (x :: y :: t).zip (y :: t) = (x, y) :: (y :: t).zip t from rfl]
      exact List.mem_cons_of_mem _ h

theorem mem_zip_tail_iff {l : List Pt} {x y : Pt} :
    (x, y) ∈ l.zip l.tail ↔ ∃ l₁ l₂, l = l₁ ++ x :: y :: l₂ := by
  constructor
  · intro h
    induction l with
    | nil => simp at h
    | cons a t ih =>
        cases t with
        | nil => simp at h
        | cons b t2 =>
            rw [List.tail_cons, List.zip_cons_cons, List.mem_cons] at h
            rcases h with h | h
            · injection h with e1 e2
              subst e1
              subst e2
              exact ⟨[], t2, rfl⟩
            · obtain ⟨l₁, l₂, hl⟩ := ih h
              exact ⟨a :: l₁, l₂, by rw [List.cons_append, ← hl]⟩
  · rintro ⟨l₁, l₂, rfl⟩
    induction l₁ with
    | nil =>
        rw [List.nil_append, List.tail_cons, List.zip_cons_cons]
        exact List.mem_cons_self _ _
    | cons a t ih =>
        rw [List.cons_append]
        exact mem_zip_tail_cons a ih

theorem mem_zip_tail_reverse {l : List Pt} {x y : Pt}
    (h : (x, y) ∈ l.zip l.tail) : (y, x) ∈ l.reverse.zip l.reverse.tail := by
  obtain ⟨l₁, l₂, rfl⟩ := mem_zip_tail_iff.mp h
  apply mem_zip_tail_iff.mpr
  refine ⟨l₂.reverse, l₁.reverse, ?_⟩
  simp

theorem zip_shift (m z : Pt) : ∀ (l₀ : List Pt),
    (l₀ ++ [m]).zip (((l₀ ++ [m]).tail) ++ [z])
      = (l₀ ++ [m]).zip ((l₀ ++ [m]).tail) ++ [(m, z)]
  | [] => by simp
  | x :: l₀ => by
      obtain ⟨a, A', hA⟩ : ∃ a A', l₀ ++ [m] = a :: A' := by
        cases hl : l₀ ++ [m] with
        | nil => exact absurd hl (by simp)
        | cons a A' => exact ⟨a, A', rfl⟩
      have ih := zip_shift m z l₀
      rw [hA] at ih
      rw [List.tail_cons] at ih
      calc ((x :: l₀) ++ [m]).zip ((((x :: l₀) ++ [m]).tail) ++ [z])
          = (x :: (a :: A')).zip ((a :: A') ++ [z]) := by
            rw [List.cons_append, List.tail_cons, hA]
        _ = (x, a) :: ((a :: A').zip (A' ++ [z])) := by
            rw [List.cons_append, List.zip_cons_cons]
        _ = (x, a) :: ((a :: A').zip A' ++ [(m, z)]) := by rw [ih]
        _ = ((x :: l₀) ++ [m]).zip (((x :: l₀) ++ [m]).tail) ++ [(m, z)] := by
            rw [List.cons_append, hA, List.tail_cons, List.zip_cons_cons, List.cons_append]

theorem zip_concat (k m : Pt) : ∀ (l₁ : List Pt),
    ((l₁ ++ [k]) ++ [m]).zip (((l₁ ++ [k]) ++ [m]).tail)
      = (l₁ ++ [k]).zip ((l₁ ++ [k]).tail) ++ [(k, m)]
  | [] => by simp
  | x :: l₁ => by
      obtain ⟨a, A', hA⟩ : ∃ a A', (l₁ ++ [k]) ++ [m] = a :: A' := by
        cases hl : (l₁ ++ [k]) ++ [m] with
        | nil => exact absurd hl (by simp)
        | cons a A' => exact ⟨a, A', rfl⟩
      obtain ⟨b, B', hB⟩ : ∃ b B', l₁ ++ [k] = b :: B' := by
        cases hl : l₁ ++ [k] with
        | nil => exact absurd hl (by simp)
        | cons b B' => exact ⟨b, B', rfl⟩
      have hab : a = b ∧ A' = B' ++ [m] := by
        have : (b :: B') ++ [m] = a :: A' := by rw [← hB, hA]
        rw [List.cons_append] at this
        injection this with e1 e2
        exact ⟨e1.symm, e2.symm⟩
      have ih := zip_concat k m l₁
      rw [hA, hB] at ih
      rw [List.tail_cons, List.tail_cons] at ih
      calc (((x :: l₁) ++ [k]) ++ [m]).zip ((((x :: l₁) ++ [k]) ++ [m]).tail)
          = (x :: (a :: A')).zip (a :: A') := by
            rw [List.cons_append, List.cons_append, hA, List.tail_cons]
        _ = (x, a) :: ((a :: A').zip A') := by rw [List.zip_cons_cons]
        _ = (x, a) :: (((b :: B').zip B') ++ [(k, m)]) := by
            rw [hab.1, hab.2] at *
            rw [ih]
        _ = ((x :: l₁) ++ [k]).zip (((x :: l₁) ++ [k]).tail) ++ [(k, m)] := by
            rw [List.cons_append, hB, List.tail_cons, List.zip_cons_cons, hab.1,
              List.cons_append]

end Stamp

namespace Stamp

theorem exists_concat2 (l : List Pt) (h : 2 ≤ l.length) :
    ∃ l₁ k m, l = (l₁ ++ [k]) ++ [m] := by
  cases hr : l.reverse with
  | nil =>
      rw [List.reverse_eq_nil_iff] at hr
      rw [hr] at h
      simp at h
  | cons a t =>
      cases t with
      | nil =>
          have : l = [a] := by
            have := congrArg List.reverse hr
            rwa [List.reverse_reverse] at this
          rw [this] at h
          simp at h
      | cons b t2 =>
          refine ⟨t2.reverse, b, a, ?_⟩
          have := congrArg List.reverse hr
          rw [List.reverse_reverse] at this
          rw [this]
          simp

theorem head?_append_of_ne_nil {A B : List Pt} (h : A ≠ []) :
    (A ++ B).head? = A.head? := by
  cases A with
  | nil => exact absurd rfl h
  | cons x t => rfl

theorem head?_dropLast {l : List Pt} (h : 2 ≤ l.length) :
    l.dropLast.head? = l.head? := by
  cases l with
  | nil => simp at h
  | cons x t =>
      cases t with
      | nil => simp at h
      | cons y t2 => rfl

/-- Every cyclic edge of the two-chain polygon is an edge of one of the
chains: the seam edges recovered by the rotation are exactly the last
edges dropped from each chain. -/
theorem cyclicPairs_two_chains (LF UF : List Pt)
    (hLF : 2 ≤ LF.length) (hUF : 2 ≤ UF.length)
    (hseam1 : UF.head? = LF.getLast?) (hseam2 : LF.head? = UF.getLast?) :
    ∀ pr ∈ (LF.dropLast ++ UF.dropLast).zip ((LF.dropLast ++ UF.dropLast).rotate 1),
      pr ∈ LF.zip LF.tail ∨ pr ∈ UF.zip UF.tail := by
  obtain ⟨LF₁, k, lastL, hLFeq⟩ := exists_concat2 LF hLF
  obtain ⟨UF₁, kU, lastU, hUFeq⟩ := exists_concat2 UF hUF
  have hdropL : LF.dropLast = LF₁ ++ [k] := by rw [hLFeq, List.dropLast_concat]
  have hdropU : UF.dropLast = UF₁ ++ [kU] := by rw [hUFeq, List.dropLast_concat]
  set A := LF₁ ++ [k] with hAdef
  set B := UF₁ ++ [kU] with hBdef
  have hAne : A ≠ [] := by simp [hAdef]
  have hBne : B ≠ [] := by simp [hBdef]
  -- the head of the whole polygon
  obtain ⟨o₀, O₂, hO⟩ : ∃ o₀ O₂, A ++ B = o₀ :: O₂ := by
    cases hO : A ++ B with
    | nil =>
        rw [List.append_eq_nil] at hO
        exact absurd hO.1 hAne
    | cons o₀ O₂ => exact ⟨o₀, O₂, rfl⟩
  -- the head of the second chain
  obtain ⟨b₀, B₂, hB⟩ : ∃ b₀ B₂, B = b₀ :: B₂ := by
    cases hB : B with
    | nil => exact absurd hB hBne
    | cons b₀ B₂ => exact ⟨b₀, B₂, rfl⟩
  -- identify the seam values
  have ho₀ : some o₀ = UF.getLast? := by
    rw [← hseam2, ← head?_dropLast hLF, hdropL, ← head?_append_of_ne_nil hAne, hO]
    rfl
  have hb₀ : some b₀ = LF.getLast? := by
    rw [← hseam1, ← head?_dropLast hUF, hdropU, hB]
    rfl
  have hlastL : b₀ = lastL := by
    have : LF.getLast? = some lastL := by rw [hLFeq]; exact List.getLast?_concat _
    rw [this] at hb₀
    injection hb₀
  have hlastU : o₀ = lastU := by
    have : UF.getLast? = some lastU := by rw [hUFeq]; exact List.getLast?_concat _
    rw [this] at ho₀
    injection ho₀
  intro pr hpr
  rw [hdropL, hdropU] at hpr
  rw [hO] at hpr
  rw [List.rotate_cons_succ, List.rotate_zero, ← hO] at hpr
  have htail_split : ∀ (A' B' : List Pt), A' ≠ [] → (A' ++ B').tail = A'.tail ++ B' := by
    intro A' B' h
    cases A' with
    | nil => exact absurd rfl h
    | cons x t => rfl
  have hlen_tail : ∀ (A' : List Pt) (z : Pt), A' ≠ [] → A'.length = (A'.tail ++ [z]).length := by
    intro A' z h
    cases A' with
    | nil => exact absurd rfl h
    | cons x t => simp
  have hO₂ : O₂ = A.tail ++ B := by
    have h := congrArg List.tail hO
    rw [List.tail_cons] at h
    rw [← h]
    rw [htail_split A B hAne]
  rw [hO₂] at hpr
  have hsplit : (A ++ B).zip ((A.tail ++ B) ++ [o₀])
      = A.zip (A.tail ++ [b₀]) ++ B.zip (B.tail ++ [o₀]) := by
    rw [show (A.tail ++ B) ++ [o₀] = (A.tail ++ [b₀]) ++ (B.tail ++ [o₀]) by
      rw [hB]
      simp]
    exact List.zip_append (hlen_tail A b₀ hAne)
  rw [hsplit, List.mem_append] at hpr
  rcases hpr with hpr | hpr
  · -- an edge of the first chain (internal or the dropped last edge)
    left
    rw [hAdef, zip_shift k b₀ LF₁] at hpr
    rw [List.mem_append] at hpr
    rw [hLFeq, zip_concat k lastL LF₁]
    rw [List.mem_append]
    rcases hpr with hpr | hpr
    · exact Or.inl hpr
    · right
      rw [List.mem_singleton] at hpr ⊢
      rw [hpr, hlastL]
  · -- an edge of the second chain (internal or the dropped last edge)
    right
    rw [hBdef, zip_shift kU o₀ UF₁] at hpr
    rw [List.mem_append] at hpr
    rw [hUFeq, zip_concat kU lastU UF₁]
    rw [List.mem_append]
    rcases hpr with hpr | hpr
    · exact Or.inl hpr
    · right
      rw [List.mem_singleton] at hpr ⊢
      rw [hpr, hlastU]

end Stamp

namespace Stamp

/-- Spike contradiction for a non-vertical left-to-right base line and an
x-descending strict turn touching the line from above. -/
theorem spike_desc {u v w1 w2 w3 : Pt} (huv : u.x < v.x)
    (h1 : 0 ≤ hullCross u v w1) (h2 : hullCross u v w2 = 0) (h3 : 0 ≤ hullCross u v w3)
    (hturn : 0 < hullCross w1 w2 w3) (hx12 : w2.x ≤ w1.x) (hx23 : w3.x ≤ w2.x) : False := by
  have hid : (v.x - u.x) * hullCross w1 w2 w3
      = hullCross u v w1 * (w3.x - w2.x) + hullCross u v w2 * (w1.x - w3.x)
        + hullCross u v w3 * (w2.x - w1.x) := by
    simp only [hullCross]
    ring
  rw [h2] at hid
  nlinarith [mul_pos (show (0:ℚ) < v.x - u.x by linarith) hturn,
    mul_nonneg h1 (show (0:ℚ) ≤ w2.x - w3.x by linarith),
    mul_nonneg h3 (show (0:ℚ) ≤ w1.x - w2.x by linarith)]

/-- Spike contradiction for a right-to-left base line and an x-ascending
strict turn touching the line. -/
theorem spike_asc {u v w1 w2 w3 : Pt} (hvu : v.x < u.x)
    (h1 : 0 ≤ hullCross u v w1) (h2 : hullCross u v w2 = 0) (h3 : 0 ≤ hullCross u v w3)
    (hturn : 0 < hullCross w1 w2 w3) (hx12 : w1.x ≤ w2.x) (hx23 : w2.x ≤ w3.x) : False := by
  have hid : (v.x - u.x) * hullCross w1 w2 w3
      = hullCross u v w1 * (w3.x - w2.x) + hullCross u v w2 * (w1.x - w3.x)
        + hullCross u v w3 * (w2.x - w1.x) := by
    simp only [hullCross]
    ring
  rw [h2] at hid
  nlinarith [mul_pos (show (0:ℚ) < u.x - v.x by linarith) hturn,
    mul_nonneg h1 (show (0:ℚ) ≤ w3.x - w2.x by linarith),
    mul_nonneg h3 (show (0:ℚ) ≤ w2.x - w1.x by linarith)]

/-- Mirror of `x_lt_of_cross_pos` for ascending triples. -/
theorem x_lt_of_cross_pos_asc {c b a : Pt} (hcb : lexLeP c b) (hba : lexLeP b a)
    (h : 0 < hullCross a b c) : b.x < a.x := by
  rcases lt_or_eq_of_le (lexLeP_x hba) with hlt | heq
  · exact hlt
  · exfalso
    have hyy : b.y ≤ a.y := lexLeP_y_of_eq_x hba heq
    have hcx : c.x ≤ a.x := le_trans (lexLeP_x hcb) (le_of_eq heq)
    have hval : hullCross a b c = -((b.y - a.y) * (c.x - a.x)) := by
      simp only [hullCross, heq]
      ring
    nlinarith

theorem pairwise_head_le {l : List Pt} (hp : List.Pairwise lexLeP l) {h z : Pt}
    (hh : l.head? = some h) (hz : z ∈ l) : lexLeP h z := by
  cases l with
  | nil => simp at hh
  | cons x t =>
      rw [List.head?_cons, Option.some_inj] at hh
      subst hh
      rcases List.mem_cons.mp hz with hz | hz
      · subst hz
        exact lexLeP_refl z
      · exact (List.pairwise_cons.mp hp).1 z hz

theorem pairwise_le_getLast {l : List Pt} (hp : List.Pairwise lexLeP l) {m z : Pt}
    (hm : l.getLast? = some m) (hz : z ∈ l) : lexLeP z m := by
  have hdec : l.dropLast ++ [m] = l := List.dropLast_append_getLast? m hm
  rw [← hdec] at hz hp
  rw [List.pairwise_append] at hp
  rcases List.mem_append.mp hz with hz | hz
  · exact hp.2.2 z hz m (List.mem_singleton_self m)
  · rw [List.mem_singleton] at hz
    subst hz
    exact lexLeP_refl z

theorem exists_concat_of_ne_nil (l : List Pt) (h : l ≠ []) : ∃ l' a, l = l' ++ [a] := by
  cases hr : l.reverse with
  | nil =>
      rw [List.reverse_eq_nil_iff] at hr
      exact absurd hr h
  | cons a t =>
      refine ⟨t.reverse, a, ?_⟩
      have := congrArg List.reverse hr
      rwa [List.reverse_reverse, List.reverse_cons] at this

/-- A member of a list that is neither the head value nor the last value
has two adjacent neighbors. -/
theorem interior_neighbors {l : List Pt} {w : Pt} (hw : w ∈ l)
    (hhead : l.head? ≠ some w) (hlast : l.getLast? ≠ some w) :
    ∃ c d, [c, w, d].Sublist l ∧ (c, w) ∈ l.zip l.tail ∧ (w, d) ∈ l.zip l.tail := by
  obtain ⟨l₁, l₂, rfl⟩ := List.append_of_mem hw
  have h₁ne : l₁ ≠ [] := by
    intro h
    rw [h] at hhead
    simp at hhead
  have h₂ne : l₂ ≠ [] := by
    intro h
    rw [h] at hlast
    rw [show l₁ ++ w :: [] = l₁ ++ [w] from rfl, List.getLast?_concat] at hlast
    exact absurd rfl hlast
  obtain ⟨l₁', c, rfl⟩ := exists_concat_of_ne_nil l₁ h₁ne
  obtain ⟨d, l₂', rfl⟩ := List.exists_cons_of_ne_nil h₂ne
  have hdec : (l₁' ++ [c]) ++ w :: d :: l₂' = l₁' ++ (c :: w :: d :: l₂') := by
    rw [List.append_assoc]
    rfl
  refine ⟨c, d, ?_, ?_, ?_⟩
  · rw [hdec]
    refine List.Sublist.trans ?_ (List.sublist_append_right l₁' _)
    exact List.Sublist.cons₂ c (List.Sublist.cons₂ w
      (List.Sublist.cons₂ d (List.nil_sublist l₂')))
  · exact mem_zip_tail_iff.mpr ⟨l₁', d :: l₂', hdec⟩
  · exact mem_zip_tail_iff.mpr ⟨l₁' ++ [c], l₂', rfl⟩

end Stamp

namespace Stamp

/-- Two points with distinct coordinates (records may still differ in
pressure or timestamp when this fails). -/
def coordNe (p q : Pt) : Prop := ¬(p.x = q.x ∧ p.y = q.y)

theorem coordNe_symm {p q : Pt} (h : coordNe p q) : coordNe q p := by
  intro ⟨hx, hy⟩
  exact h ⟨hx.symm, hy.symm⟩

theorem coordNe_ne {p q : Pt} (h : coordNe p q) : p ≠ q := by
  intro he
  subst he
  exact h ⟨rfl, rfl⟩

theorem hullCross_swap_first (a b w : Pt) : hullCross b a w = -hullCross a b w := by
  simp only [hullCross]
  ring

/-- A point lexicographically pinched between two coordinate-equal points
shares their coordinates. -/
theorem lex_pinch {p q z : Pt} (h1 : lexLeP p z) (h2 : lexLeP z q)
    (hx : p.x = q.x) (hy : p.y = q.y) : z.x = p.x ∧ z.y = p.y := by
  have hx1 := lexLeP_x h1
  have hx2 := lexLeP_x h2
  have hzx : z.x = p.x := le_antisymm (by rw [hx]; exact hx2) hx1
  have hy1 := lexLeP_y_of_eq_x h1 hzx.symm
  have hy2 := lexLeP_y_of_eq_x h2 (by rw [hzx, hx])
  refine ⟨hzx, le_antisymm ?_ hy1⟩
  rw [hy]
  exact hy2

theorem sublist_pair_extend {l : List Pt} {x y : Pt} (h : [x, y].Sublist l)
    (hlen : 3 ≤ l.length) :
    ∃ z, [z, x, y].Sublist l ∨ [x, z, y].Sublist l ∨ [x, y, z].Sublist l := by
  cases h with
  | cons a h' =>
      exact ⟨a, Or.inl (List.Sublist.cons₂ a h')⟩
  | cons₂ a h' =>
      rw [List.singleton_sublist] at h'
      obtain ⟨t₁, t₂, rfl⟩ := List.append_of_mem h'
      rw [List.length_cons, List.length_append, List.length_cons] at hlen
      rcases (show t₁ ≠ [] ∨ t₂ ≠ [] by
        rcases List.eq_nil_or_concat t₁ with h1 | h1
        · right
          intro h2
          rw [h1, h2] at hlen
          simp at hlen
        · exact Or.inl (by rcases h1 with ⟨l', a, rfl⟩; simp)) with ht | ht
      · obtain ⟨t₁', z, rfl⟩ := exists_concat_of_ne_nil t₁ ht
        refine ⟨z, Or.inr (Or.inl ?_)⟩
        have hd : t₁' ++ [z] ++ y :: t₂ = t₁' ++ (z :: y :: t₂) := by
          rw [List.append_assoc]
          rfl
        rw [hd]
        refine List.Sublist.cons₂ x (List.Sublist.trans ?_
          (List.sublist_append_right t₁' _))
        exact List.Sublist.cons₂ z (List.Sublist.cons₂ y (List.nil_sublist t₂))
      · obtain ⟨z, t₂', rfl⟩ := List.exists_cons_of_ne_nil ht
        refine ⟨z, Or.inr (Or.inr ?_)⟩
        refine List.Sublist.cons₂ x (List.Sublist.trans ?_
          (List.sublist_append_right t₁ _))
        exact List.Sublist.cons₂ y (List.Sublist.cons₂ z (List.nil_sublist t₂'))

/-- In a strict stack of at least three entries, every pair of entries
has distinct coordinates. -/
theorem strict_pairwise_coordNe {l : List Pt} (hstrict : StrictStack l)
    (hlen : 3 ≤ l.length) : l.Pairwise coordNe := by
  rw [List.pairwise_iff_forall_sublist]
  intro x y h ⟨hx, hy⟩
  obtain ⟨z, hz | hz | hz⟩ := sublist_pair_extend h hlen
  · have hpos := hstrict z x y hz
    have h0 : hullCross y x z = 0 := by
      simp only [hullCross, hx, hy]
      ring
    rw [h0] at hpos
    exact lt_irrefl 0 hpos
  · have hpos := hstrict x z y hz
    have h0 : hullCross y z x = 0 := by
      simp only [hullCross, hx, hy]
      ring
    rw [h0] at hpos
    exact lt_irrefl 0 hpos
  · have hpos := hstrict x y z hz
    have h0 : hullCross z y x = 0 := by
      simp only [hullCross, hx, hy]
      ring
    rw [h0] at hpos
    exact lt_irrefl 0 hpos

instance : IsTrans Pt lexLeP :=
  ⟨fun _ _ _ h1 h2 => lexLeP_trans h1 h2⟩

theorem asc_pairwise {l : List Pt} (h : List.Chain' lexLeP l) :
    List.Pairwise lexLeP l :=
  List.chain'_iff_pairwise.mp h

/-- A lower-stack adjacent pair away from the stack head is strictly
descending in `x`. -/
theorem stack_pair_x_strict_desc {l : List Pt} (hchain : List.Chain' (fun x y => lexLeP y x) l)
    (hstrict : StrictStack l) {B A : Pt} (hpr : (B, A) ∈ l.zip l.tail)
    (hhead : l.head? ≠ some B) : A.x < B.x := by
  obtain ⟨l₁, l₂, rfl⟩ := mem_zip_tail_iff.mp hpr
  have h₁ne : l₁ ≠ [] := by
    intro h
    rw [h] at hhead
    simp at hhead
  obtain ⟨l₁', c, rfl⟩ := exists_concat_of_ne_nil l₁ h₁ne
  have htriple : [c, B, A].Sublist (l₁' ++ [c] ++ B :: A :: l₂) := by
    rw [List.append_assoc]
    refine List.Sublist.trans ?_ (List.sublist_append_right l₁' _)
    exact List.Sublist.cons₂ c (List.Sublist.cons₂ B
      (List.Sublist.cons₂ A (List.nil_sublist l₂)))
  have hpw := List.Pairwise.sublist htriple (stack_pairwise hchain)
  rw [List.pairwise_cons] at hpw
  have hBc : lexLeP B c := hpw.1 B (by simp)
  have hAB : lexLeP A B := (List.pairwise_cons.mp hpw.2).1 A (by simp)
  exact x_lt_of_cross_pos hAB hBc (hstrict c B A htriple)

/-- An upper-stack adjacent pair away from the stack head is strictly
ascending in `x`. -/
theorem stack_pair_x_strict_asc {l : List Pt} (hchain : List.Chain' lexLeP l)
    (hstrict : StrictStack l) {B A : Pt} (hpr : (B, A) ∈ l.zip l.tail)
    (hhead : l.head? ≠ some B) : B.x < A.x := by
  obtain ⟨l₁, l₂, rfl⟩ := mem_zip_tail_iff.mp hpr
  have h₁ne : l₁ ≠ [] := by
    intro h
    rw [h] at hhead
    simp at hhead
  obtain ⟨l₁', c, rfl⟩ := exists_concat_of_ne_nil l₁ h₁ne
  have htriple : [c, B, A].Sublist (l₁' ++ [c] ++ B :: A :: l₂) := by
    rw [List.append_assoc]
    refine List.Sublist.trans ?_ (List.sublist_append_right l₁' _)
    exact List.Sublist.cons₂ c (List.Sublist.cons₂ B
      (List.Sublist.cons₂ A (List.nil_sublist l₂)))
  have hpw := List.Pairwise.sublist htriple (asc_pairwise hchain)
  rw [List.pairwise_cons] at hpw
  have hcB : lexLeP c B := hpw.1 B (by simp)
  have hBA : lexLeP B A := (List.pairwise_cons.mp hpw.2).1 A (by simp)
  exact x_lt_of_cross_pos_asc hcB hBA (hstrict c B A htriple)

/-- No strict turn with the middle vertex at the maximal abscissa of an
ascending neighborhood. -/
theorem no_interior_at_xmax {c w d : Pt} (hcw : lexLeP c w) (hwd : lexLeP w d)
    (hdx : d.x ≤ w.x) (hturn : 0 < hullCross d w c) : False := by
  have hx : w.x = d.x := le_antisymm (lexLeP_x hwd) hdx
  have hy : w.y ≤ d.y := lexLeP_y_of_eq_x hwd hx
  have hcx : c.x ≤ w.x := lexLeP_x hcw
  have h0 : hullCross d w c = -((w.y - d.y) * (c.x - d.x)) := by
    simp only [hullCross, hx]
    ring
  rw [h0] at hturn
  nlinarith [mul_nonneg (sub_nonneg.mpr hy)
    (sub_nonneg.mpr (le_trans hcx (le_of_eq hx)))]

/-- No strict turn with the middle vertex at the minimal abscissa of a
descending neighborhood. -/
theorem no_interior_at_xmin {c w d : Pt} (hwc : lexLeP w c) (hdw : lexLeP d w)
    (hdx : w.x ≤ d.x) (hturn : 0 < hullCross d w c) : False := by
  have hx : d.x = w.x := le_antisymm (lexLeP_x hdw) hdx
  have hy : d.y ≤ w.y := lexLeP_y_of_eq_x hdw hx
  have hcx : w.x ≤ c.x := lexLeP_x hwc
  have h0 : hullCross d w c = -((w.y - d.y) * (c.x - d.x)) := by
    simp only [hullCross, hx]
    ring
  rw [h0] at hturn
  nlinarith [mul_nonneg (sub_nonneg.mpr hy)
    (sub_nonneg.mpr ((le_of_eq hx).trans hcx))]

/-- A list of at least three pairwise coordinate-distinct points has a
member different from any two given records. -/
theorem exists_third {l : List Pt} (hpw : l.Pairwise coordNe)
    (hlen : 3 ≤ l.length) (a b : Pt) : ∃ w ∈ l, w ≠ a ∧ w ≠ b := by
  obtain ⟨x₁, l₁, rfl⟩ := List.exists_cons_of_ne_nil
    (show l ≠ [] by intro h; rw [h] at hlen; simp at hlen)
  obtain ⟨x₂, l₂, rfl⟩ := List.exists_cons_of_ne_nil
    (show l₁ ≠ [] by intro h; rw [h] at hlen; simp at hlen)
  obtain ⟨x₃, l₃, rfl⟩ := List.exists_cons_of_ne_nil
    (show l₂ ≠ [] by intro h; rw [h] at hlen; simp at hlen)
  have h12 : x₁ ≠ x₂ := coordNe_ne ((List.pairwise_cons.mp hpw).1 x₂ (by simp))
  have h13 : x₁ ≠ x₃ := coordNe_ne ((List.pairwise_cons.mp hpw).1 x₃ (by simp))
  have h23 : x₂ ≠ x₃ := coordNe_ne
    ((List.pairwise_cons.mp (List.pairwise_cons.mp hpw).2).1 x₃ (by simp))
  by_cases h1a : x₁ = a
  · by_cases h2b : x₂ = b
    · refine ⟨x₃, by simp, ?_, ?_⟩
      · rw [← h1a]
        exact h13.symm
      · rw [← h2b]
        exact h23.symm
    · refine ⟨x₂, by simp, ?_, h2b⟩
      rw [← h1a]
      exact h12.symm
  · by_cases h1b : x₁ = b
    · by_cases h2a : x₂ = a
      · refine ⟨x₃, by simp, ?_, ?_⟩
        · rw [← h2a]
          exact h23.symm
        · rw [← h1b]
          exact h13.symm
      · refine ⟨x₂, by simp, h2a, ?_⟩
        rw [← h1b]
        exact h12.symm
    · exact ⟨x₁, by simp, h1a, h1b⟩

end Stamp

namespace Stamp

/-- An interior vertex of the upper stack cannot lie on the line of a
non-vertical lower-stack edge. -/
theorem uf_interior_off_lower (sorted : List Pt) (hsorted : List.Pairwise lexLeP sorted)
    {u v b : Pt}
    (hpr : (v, u) ∈ (buildChain sorted).zip (buildChain sorted).tail)
    (huv : u.x < v.x)
    (hb : b ∈ buildChain sorted.reverse)
    (hbhead : (buildChain sorted.reverse).head? ≠ some b)
    (hblast : (buildChain sorted.reverse).getLast? ≠ some b)
    (h0 : hullCross u v b = 0) : False := by
  obtain ⟨c, d, htriple, -, -⟩ := interior_neighbors hb hbhead hblast
  have hpw3 := List.Pairwise.sublist htriple (asc_pairwise (upper_chain' sorted hsorted))
  have hcb : lexLeP c b := (List.pairwise_cons.mp hpw3).1 b (by simp)
  have hbd : lexLeP b d :=
    (List.pairwise_cons.mp (List.pairwise_cons.mp hpw3).2).1 d (by simp)
  have hturn : 0 < hullCross d b c := upper_strict sorted hsorted c b d htriple
  have hcmem : c ∈ sorted := List.mem_reverse.mp
    (buildChain_subset sorted.reverse c (htriple.subset (by simp)))
  have hdmem : d ∈ sorted := List.mem_reverse.mp
    (buildChain_subset sorted.reverse d (htriple.subset (by simp)))
  have hbel := input_aboveLine sorted hsorted hpr
  exact spike_desc huv (hbel d hdmem) h0 (hbel c hcmem) hturn (lexLeP_x hbd) (lexLeP_x hcb)

/-- An interior vertex of the lower stack cannot lie on the line of a
non-vertical upper-stack edge. -/
theorem lf_interior_off_upper (sorted : List Pt) (hsorted : List.Pairwise lexLeP sorted)
    {u v b : Pt}
    (hpr : (v, u) ∈ (buildChain sorted.reverse).zip (buildChain sorted.reverse).tail)
    (hvu : v.x < u.x)
    (hb : b ∈ buildChain sorted)
    (hbhead : (buildChain sorted).head? ≠ some b)
    (hblast : (buildChain sorted).getLast? ≠ some b)
    (h0 : hullCross u v b = 0) : False := by
  obtain ⟨c, d, htriple, -, -⟩ := interior_neighbors hb hbhead hblast
  obtain ⟨-, hchainL, -⟩ := buildChain_inv sorted hsorted
  have hpw3 := List.Pairwise.sublist htriple (stack_pairwise hchainL)
  have hbc : lexLeP b c := (List.pairwise_cons.mp hpw3).1 b (by simp)
  have hdb : lexLeP d b :=
    (List.pairwise_cons.mp (List.pairwise_cons.mp hpw3).2).1 d (by simp)
  have hturn : 0 < hullCross d b c := buildChain_strict sorted hsorted c b d htriple
  have hcmem : c ∈ sorted := buildChain_subset sorted c (htriple.subset (by simp))
  have hdmem : d ∈ sorted := buildChain_subset sorted d (htriple.subset (by simp))
  have hbel := input_belowLine sorted hsorted hpr
  exact spike_asc hvu (hbel d hdmem) h0 (hbel c hcmem) hturn (lexLeP_x hdb) (lexLeP_x hbc)

theorem strict_triple_of_len3 {l : List Pt} (hlen : 3 ≤ l.length) :
    ∃ x₁ x₂ x₃, [x₁, x₂, x₃].Sublist l := by
  obtain ⟨x₁, l₁, rfl⟩ := List.exists_cons_of_ne_nil
    (show l ≠ [] by intro h; rw [h] at hlen; simp at hlen)
  obtain ⟨x₂, l₂, rfl⟩ := List.exists_cons_of_ne_nil
    (show l₁ ≠ [] by intro h; rw [h] at hlen; simp at hlen)
  obtain ⟨x₃, l₃, rfl⟩ := List.exists_cons_of_ne_nil
    (show l₂ ≠ [] by intro h; rw [h] at hlen; simp at hlen)
  exact ⟨x₁, x₂, x₃, List.Sublist.cons₂ x₁ (List.Sublist.cons₂ x₂
    (List.Sublist.cons₂ x₃ (List.nil_sublist l₃)))⟩

/-- If either stack reaches three entries, the extreme input points have
distinct coordinates (the input is not coordinate-degenerate). -/
theorem first_last_coordNe (sorted : List Pt) (hsorted : List.Pairwise lexLeP sorted)
    {p₁ pₙ : Pt} (hh : sorted.head? = some p₁) (hl : sorted.getLast? = some pₙ)
    (h3 : 3 ≤ (buildChain sorted).length ∨ 3 ≤ (buildChain sorted.reverse).length) :
    coordNe p₁ pₙ := by
  intro ⟨hx, hy⟩
  have hall : ∀ z ∈ sorted, z.x = p₁.x ∧ z.y = p₁.y := fun z hz =>
    lex_pinch (pairwise_head_le hsorted hh hz) (pairwise_le_getLast hsorted hl hz) hx hy
  rcases h3 with h3 | h3
  · obtain ⟨x₁, x₂, x₃, htr⟩ := strict_triple_of_len3 h3
    have hpos := buildChain_strict sorted hsorted x₁ x₂ x₃ htr
    obtain ⟨e1x, e1y⟩ := hall x₁ (buildChain_subset sorted x₁ (htr.subset (by simp)))
    obtain ⟨e2x, e2y⟩ := hall x₂ (buildChain_subset sorted x₂ (htr.subset (by simp)))
    obtain ⟨e3x, e3y⟩ := hall x₃ (buildChain_subset sorted x₃ (htr.subset (by simp)))
    have h0 : hullCross x₃ x₂ x₁ = 0 := by
      simp only [hullCross, e1x, e1y, e2x, e2y, e3x, e3y]
      ring
    rw [h0] at hpos
    exact lt_irrefl 0 hpos
  · obtain ⟨x₁, x₂, x₃, htr⟩ := strict_triple_of_len3 h3
    have hpos := upper_strict sorted hsorted x₁ x₂ x₃ htr
    obtain ⟨e1x, e1y⟩ := hall x₁ (List.mem_reverse.mp
      (buildChain_subset sorted.reverse x₁ (htr.subset (by simp))))
    obtain ⟨e2x, e2y⟩ := hall x₂ (List.mem_reverse.mp
      (buildChain_subset sorted.reverse x₂ (htr.subset (by simp))))
    obtain ⟨e3x, e3y⟩ := hall x₃ (List.mem_reverse.mp
      (buildChain_subset sorted.reverse x₃ (htr.subset (by simp))))
    have h0 : hullCross x₃ x₂ x₁ = 0 := by
      simp only [hullCross, e1x, e1y, e2x, e2y, e3x, e3y]
      ring
    rw [h0] at hpos
    exact lt_irrefl 0 hpos

end Stamp

namespace Stamp

theorem pairwise_of_len_le2 {R : Pt → Pt → Prop} {l : List Pt} (hlen : l.length ≤ 2)
    {a b : Pt} (hh : l.head? = some a) (hl : l.getLast? = some b) (hR : R a b) :
    l.Pairwise R := by
  cases l with
  | nil => exact List.Pairwise.nil
  | cons x t =>
      cases t with
      | nil => simp
      | cons y t2 =>
          cases t2 with
          | nil =>
              rw [List.head?_cons, Option.some_inj] at hh
              rw [List.getLast?_cons_cons, show [y].getLast? = some y from rfl,
                Option.some_inj] at hl
              rw [hh, hl]
              refine List.pairwise_cons.mpr ⟨?_, List.pairwise_singleton R b⟩
              intro z hz
              rw [List.mem_singleton] at hz
              subst hz
              exact hR
          | cons z t3 => simp at hlen

theorem stackL_coordNe (sorted : List Pt) (hsorted : List.Pairwise lexLeP sorted)
    {p₁ pₙ : Pt} (hh : sorted.head? = some p₁) (hl : sorted.getLast? = some pₙ)
    (hne : coordNe p₁ pₙ) : (buildChain sorted).Pairwise coordNe := by
  by_cases h3 : 3 ≤ (buildChain sorted).length
  · exact strict_pairwise_coordNe (buildChain_strict sorted hsorted) h3
  · have hsne : sorted ≠ [] := by
      intro h
      rw [h] at hh
      simp at hh
    exact pairwise_of_len_le2 (by omega)
      (by rw [buildChain_head? sorted hsne, hl])
      (by rw [buildChain_getLast?, hh]) (coordNe_symm hne)

theorem stackU_coordNe (sorted : List Pt) (hsorted : List.Pairwise lexLeP sorted)
    {p₁ pₙ : Pt} (hh : sorted.head? = some p₁) (hl : sorted.getLast? = some pₙ)
    (hne : coordNe p₁ pₙ) : (buildChain sorted.reverse).Pairwise coordNe := by
  by_cases h3 : 3 ≤ (buildChain sorted.reverse).length
  · exact strict_pairwise_coordNe (upper_strict sorted hsorted) h3
  · have hsne : sorted.reverse ≠ [] := by
      intro h
      rw [List.reverse_eq_nil_iff] at h
      rw [h] at hh
      simp at hh
    exact pairwise_of_len_le2 (by omega)
      (by rw [buildChain_head? sorted.reverse hsne, List.getLast?_reverse, hh])
      (by rw [buildChain_getLast?, List.head?_reverse, hl]) hne

/-- The polygon assembled from the two chains has pairwise
coordinate-distinct vertices. -/
theorem chains_coordNe (sorted : List Pt) (hsorted : List.Pairwise lexLeP sorted)
    {p₁ pₙ : Pt} (hh : sorted.head? = some p₁) (hl : sorted.getLast? = some pₙ)
    (hne : coordNe p₁ pₙ) :
    ((buildChain sorted).reverse.dropLast
      ++ (buildChain sorted.reverse).reverse.dropLast).Pairwise coordNe := by
  have hsne : sorted ≠ [] := by
    intro h
    rw [h] at hh
    simp at hh
  have hpwLF : (buildChain sorted).reverse.Pairwise coordNe :=
    List.pairwise_reverse.mpr
      ((stackL_coordNe sorted hsorted hh hl hne).imp fun h => coordNe_symm h)
  have hpwUF : (buildChain sorted.reverse).reverse.Pairwise coordNe :=
    List.pairwise_reverse.mpr
      ((stackU_coordNe sorted hsorted hh hl hne).imp fun h => coordNe_symm h)
  have hLFlast : (buildChain sorted).reverse.getLast? = some pₙ := by
    rw [List.getLast?_reverse, buildChain_head? sorted hsne, hl]
  have hUFlast : (buildChain sorted.reverse).reverse.getLast? = some p₁ := by
    rw [List.getLast?_reverse, buildChain_head? sorted.reverse
      (by intro h; rw [List.reverse_eq_nil_iff] at h; exact hsne h),
      List.getLast?_reverse, hh]
  have hLdecomp := List.dropLast_append_getLast? pₙ hLFlast
  have hUdecomp := List.dropLast_append_getLast? p₁ hUFlast
  rw [List.pairwise_append]
  refine ⟨hpwLF.sublist (List.dropLast_sublist _), hpwUF.sublist (List.dropLast_sublist _), ?_⟩
  intro a ha b hb
  have hapn : coordNe a pₙ := by
    rw [← hLdecomp, List.pairwise_append] at hpwLF
    exact hpwLF.2.2 a ha pₙ (List.mem_singleton_self pₙ)
  have hbp1 : coordNe b p₁ := by
    rw [← hUdecomp, List.pairwise_append] at hpwUF
    exact hpwUF.2.2 b hb p₁ (List.mem_singleton_self p₁)
  have haL : a ∈ buildChain sorted :=
    List.mem_reverse.mp ((List.dropLast_sublist _).subset ha)
  have hbU : b ∈ buildChain sorted.reverse :=
    List.mem_reverse.mp ((List.dropLast_sublist _).subset hb)
  intro ⟨hx, hy⟩
  by_cases hap1 : a.x = p₁.x ∧ a.y = p₁.y
  · exact hbp1 ⟨hx ▸ hap1.1, hy ▸ hap1.2⟩
  have hbpn : ¬(b.x = pₙ.x ∧ b.y = pₙ.y) := by
    intro hb2
    exact hapn ⟨hx.trans hb2.1, hy.trans hb2.2⟩
  -- a is interior to the lower stack, b is interior to the upper stack
  have hahead : (buildChain sorted).head? ≠ some a := by
    intro h
    rw [buildChain_head? sorted hsne, hl, Option.some_inj] at h
    exact hapn ⟨by rw [h], by rw [h]⟩
  have halast : (buildChain sorted).getLast? ≠ some a := by
    intro h
    rw [buildChain_getLast?, hh, Option.some_inj] at h
    exact hap1 ⟨by rw [h], by rw [h]⟩
  have hbhead : (buildChain sorted.reverse).head? ≠ some b := by
    intro h
    rw [buildChain_head? sorted.reverse
      (by intro h2; rw [List.reverse_eq_nil_iff] at h2; exact hsne h2),
      List.getLast?_reverse, hh, Option.some_inj] at h
    exact hbp1 ⟨by rw [h], by rw [h]⟩
  have hblast : (buildChain sorted.reverse).getLast? ≠ some b := by
    intro h
    rw [buildChain_getLast?, List.head?_reverse, hl, Option.some_inj] at h
    exact hbpn ⟨by rw [h], by rw [h]⟩
  obtain ⟨c, d, -, -, hpair⟩ := interior_neighbors haL hahead halast
  obtain ⟨-, hchainL, -⟩ := buildChain_inv sorted hsorted
  have hdax : d.x < a.x := stack_pair_x_strict_desc hchainL
    (buildChain_strict sorted hsorted) hpair hahead
  have h0 : hullCross d a b = 0 := by
    simp only [hullCross, ← hx, ← hy]
    ring
  exact uf_interior_off_lower sorted hsorted hpair hdax hbU hbhead hblast h0

end Stamp

namespace Stamp

/-- Every hull vertex other than the edge's endpoints lies strictly to
the left of each forward lower-chain edge. -/
theorem lower_edge_strict (sorted : List Pt) (hsorted : List.Pairwise lexLeP sorted)
    {p₁ pₙ : Pt} (hh : sorted.head? = some p₁) (hl : sorted.getLast? = some pₙ)
    (hne : coordNe p₁ pₙ) {u v w : Pt}
    (hpairL : (v, u) ∈ (buildChain sorted).zip (buildChain sorted).tail)
    (hw : w ∈ buildChain sorted ∨ w ∈ buildChain sorted.reverse)
    (hw1 : w ≠ u) (hw2 : w ≠ v) : 0 < hullCross u v w := by
  have hsne : sorted ≠ [] := by
    intro h
    rw [h] at hh
    simp at hh
  have hrne : sorted.reverse ≠ [] := by
    intro h
    rw [List.reverse_eq_nil_iff] at h
    exact hsne h
  have hstrictL := buildChain_strict sorted hsorted
  obtain ⟨-, hchainL, -⟩ := buildChain_inv sorted hsorted
  by_cases hwL : w ∈ buildChain sorted
  · rcases zip_pair_cases hpairL hwL with h | h | h | h
    · exact hstrictL w v u h
    · have := hstrictL v u w h
      rwa [hullCross_cyc w u v] at this
    · exact absurd h hw2
    · exact absurd h hw1
  · have hwU : w ∈ buildChain sorted.reverse := by
      rcases hw with h | h
      · exact absurd h hwL
      · exact h
    have hwS : w ∈ sorted := List.mem_reverse.mp (buildChain_subset sorted.reverse w hwU)
    have hUhead : (buildChain sorted.reverse).head? = some p₁ := by
      rw [buildChain_head? sorted.reverse hrne, List.getLast?_reverse, hh]
    have hUlast : (buildChain sorted.reverse).getLast? = some pₙ := by
      rw [buildChain_getLast?, List.head?_reverse, hl]
    have hLhead : (buildChain sorted).head? = some pₙ := by
      rw [buildChain_head? sorted hsne, hl]
    have hLlast : (buildChain sorted).getLast? = some p₁ := by
      rw [buildChain_getLast?, hh]
    have hwhead : (buildChain sorted.reverse).head? ≠ some w := by
      intro h
      rw [hUhead, Option.some_inj] at h
      exact hwL (h ▸ List.mem_of_mem_getLast? hLlast)
    have hwlast : (buildChain sorted.reverse).getLast? ≠ some w := by
      intro h
      rw [hUlast, Option.some_inj] at h
      exact hwL (h ▸ List.mem_of_mem_head? hLhead)
    have hge : 0 ≤ hullCross u v w := input_aboveLine sorted hsorted hpairL w hwS
    rcases lt_or_eq_of_le hge with hgt | heq
    · exact hgt
    have hlexuv : lexLeP u v :=
      @chain'_zip_rel (fun x y => lexLeP y x) _ v u hchainL hpairL
    rcases lt_or_eq_of_le (lexLeP_x hlexuv) with hxlt | hxeq
    · exact absurd heq.symm
        (fun h0 => uf_interior_off_lower sorted hsorted hpairL hxlt hwU hwhead hwlast h0)
    -- vertical seam edge: v is the stack head, i.e. the lexicographic maximum
    · have hvhead : (buildChain sorted).head? = some v := by
        by_contra hvh
        exact absurd hxeq (ne_of_lt
          (stack_pair_x_strict_desc hchainL hstrictL hpairL hvh))
      have hvpn : v = pₙ := by
        rw [hvhead] at hLhead
        exact Option.some_inj.mp hLhead.symm |>.symm
      have hcoordvu : coordNe v u :=
        List.pairwise_iff_forall_sublist.mp
          (stackL_coordNe sorted hsorted hh hl hne)
          (pair_sublist_of_mem_zip hpairL)
      have huyv : u.y < v.y := by
        rcases lt_or_eq_of_le (lexLeP_y_of_eq_x hlexuv hxeq) with h | h
        · exact h
        · exact absurd ⟨hxeq.symm, h.symm⟩ hcoordvu
      have hwx : w.x < u.x := by
        obtain ⟨c, d, htriple, -, -⟩ := interior_neighbors hwU hwhead hwlast
        have hpw3 := List.Pairwise.sublist htriple (asc_pairwise (upper_chain' sorted hsorted))
        have hcw : lexLeP c w := (List.pairwise_cons.mp hpw3).1 w (by simp)
        have hwd : lexLeP w d :=
          (List.pairwise_cons.mp (List.pairwise_cons.mp hpw3).2).1 d (by simp)
        have hturn : 0 < hullCross d w c := upper_strict sorted hsorted c w d htriple
        have hdmem : d ∈ sorted := List.mem_reverse.mp
          (buildChain_subset sorted.reverse d (htriple.subset (by simp)))
        have hdx : d.x ≤ pₙ.x := lexLeP_x (pairwise_le_getLast hsorted hl hdmem)
        have hwxle : w.x ≤ pₙ.x := lexLeP_x (pairwise_le_getLast hsorted hl hwS)
        by_contra hcon
        have hpnx : pₙ.x = u.x := by
          rw [← hvpn]
          exact hxeq.symm
        have hwu : w.x = u.x := le_antisymm (hpnx ▸ hwxle) (not_lt.mp hcon)
        refine no_interior_at_xmax hcw hwd ?_ hturn
        rw [hwu, ← hpnx]
        exact hdx
      have hval : hullCross u v w = (v.y - u.y) * (u.x - w.x) := by
        simp only [hullCross, ← hxeq]
        ring
      rw [hval]
      exact mul_pos (by linarith) (by linarith)

end Stamp

namespace Stamp

/-- Every hull vertex other than the edge's endpoints lies strictly to
the left of each forward upper-chain edge. -/
theorem upper_edge_strict (sorted : List Pt) (hsorted : List.Pairwise lexLeP sorted)
    {p₁ pₙ : Pt} (hh : sorted.head? = some p₁) (hl : sorted.getLast? = some pₙ)
    (hne : coordNe p₁ pₙ) {u v w : Pt}
    (hpairU : (v, u) ∈ (buildChain sorted.reverse).zip (buildChain sorted.reverse).tail)
    (hw : w ∈ buildChain sorted ∨ w ∈ buildChain sorted.reverse)
    (hw1 : w ≠ u) (hw2 : w ≠ v) : 0 < hullCross u v w := by
  have hsne : sorted ≠ [] := by
    intro h
    rw [h] at hh
    simp at hh
  have hrne : sorted.reverse ≠ [] := by
    intro h
    rw [List.reverse_eq_nil_iff] at h
    exact hsne h
  have hstrictL := buildChain_strict sorted hsorted
  have hstrictU := upper_strict sorted hsorted
  have hchainU := upper_chain' sorted hsorted
  by_cases hwU : w ∈ buildChain sorted.reverse
  · rcases zip_pair_cases hpairU hwU with h | h | h | h
    · exact hstrictU w v u h
    · have := hstrictU v u w h
      rwa [hullCross_cyc w u v] at this
    · exact absurd h hw2
    · exact absurd h hw1
  · have hwL : w ∈ buildChain sorted := by
      rcases hw with h | h
      · exact h
      · exact absurd h hwU
    have hwS : w ∈ sorted := buildChain_subset sorted w hwL
    have hUhead : (buildChain sorted.reverse).head? = some p₁ := by
      rw [buildChain_head? sorted.reverse hrne, List.getLast?_reverse, hh]
    have hUlast : (buildChain sorted.reverse).getLast? = some pₙ := by
      rw [buildChain_getLast?, List.head?_reverse, hl]
    have hLhead : (buildChain sorted).head? = some pₙ := by
      rw [buildChain_head? sorted hsne, hl]
    have hLlast : (buildChain sorted).getLast? = some p₁ := by
      rw [buildChain_getLast?, hh]
    have hwhead : (buildChain sorted).head? ≠ some w := by
      intro h
      rw [hLhead, Option.some_inj] at h
      exact hwU (h ▸ List.mem_of_mem_getLast? hUlast)
    have hwlast : (buildChain sorted).getLast? ≠ some w := by
      intro h
      rw [hLlast, Option.some_inj] at h
      exact hwU (h ▸ List.mem_of_mem_head? hUhead)
    have hge : 0 ≤ hullCross u v w := input_belowLine sorted hsorted hpairU w hwS
    rcases lt_or_eq_of_le hge with hgt | heq
    · exact hgt
    have hlexvu : lexLeP v u :=
      @chain'_zip_rel lexLeP _ v u hchainU hpairU
    rcases lt_or_eq_of_le (lexLeP_x hlexvu) with hxlt | hxeq
    · exact absurd heq.symm
        (fun h0 => lf_interior_off_upper sorted hsorted hpairU hxlt hwL hwhead hwlast h0)
    -- vertical seam edge: v is the upper stack head, the lexicographic minimum
    · have hvhead : (buildChain sorted.reverse).head? = some v := by
        by_contra hvh
        exact absurd hxeq (ne_of_lt
          (stack_pair_x_strict_asc hchainU hstrictU hpairU hvh))
      have hvp1 : v = p₁ := by
        rw [hvhead] at hUhead
        exact Option.some_inj.mp hUhead.symm |>.symm
      have hcoordvu : coordNe v u :=
        List.pairwise_iff_forall_sublist.mp
          (stackU_coordNe sorted hsorted hh hl hne)
          (pair_sublist_of_mem_zip hpairU)
      have hvyu : v.y < u.y := by
        rcases lt_or_eq_of_le (lexLeP_y_of_eq_x hlexvu hxeq) with h | h
        · exact h
        · exact absurd ⟨hxeq, h⟩ hcoordvu
      have hwx : u.x < w.x := by
        obtain ⟨c, d, htriple, -, -⟩ := interior_neighbors hwL hwhead hwlast
        obtain ⟨-, hchainL, -⟩ := buildChain_inv sorted hsorted
        have hpw3 := List.Pairwise.sublist htriple (stack_pairwise hchainL)
        have hwc : lexLeP w c := (List.pairwise_cons.mp hpw3).1 w (by simp)
        have hdw : lexLeP d w :=
          (List.pairwise_cons.mp (List.pairwise_cons.mp hpw3).2).1 d (by simp)
        have hturn : 0 < hullCross d w c := hstrictL c w d htriple
        have hdmem : d ∈ sorted := buildChain_subset sorted d (htriple.subset (by simp))
        have hdx : p₁.x ≤ d.x := lexLeP_x (pairwise_head_le hsorted hh hdmem)
        have hwxge : p₁.x ≤ w.x := lexLeP_x (pairwise_head_le hsorted hh hwS)
        by_contra hcon
        have hp1x : p₁.x = u.x := by
          rw [← hvp1]
          exact hxeq
        have hwu : w.x = u.x := le_antisymm (not_lt.mp hcon) (hp1x ▸ hwxge)
        refine no_interior_at_xmin hwc hdw ?_ hturn
        rw [hwu, ← hp1x]
        exact hdx
      have hval : hullCross u v w = (u.y - v.y) * (w.x - u.x) := by
        simp only [hullCross, hxeq]
        ring
      rw [hval]
      exact mul_pos (by linarith) (by linarith)

end Stamp

namespace Stamp

/-- The cyclic edge pairs of a polygon given as a vertex list. -/
def cyclicPairs (l : List Pt) : List (Pt × Pt) := l.zip (l.rotate 1)

/-- Strict convex position of the two-chain polygon: every vertex that is
not an endpoint of an edge lies strictly to the left of that edge. -/
theorem chains_strictPos (sorted : List Pt) (hsorted : List.Pairwise lexLeP sorted)
    {p₁ pₙ : Pt} (hh : sorted.head? = some p₁) (hl : sorted.getLast? = some pₙ)
    (hne : coordNe p₁ pₙ) :
    ∀ pr ∈ cyclicPairs ((buildChain sorted).reverse.dropLast
        ++ (buildChain sorted.reverse).reverse.dropLast),
      ∀ w ∈ (buildChain sorted).reverse.dropLast
          ++ (buildChain sorted.reverse).reverse.dropLast,
        w ≠ pr.1 → w ≠ pr.2 → 0 < hullCross pr.1 pr.2 w := by
  have hsne : sorted ≠ [] := by
    intro h
    rw [h] at hh
    simp at hh
  have hrne : sorted.reverse ≠ [] := by
    intro h
    rw [List.reverse_eq_nil_iff] at h
    exact hsne h
  have hlen2 : 2 ≤ sorted.length := by
    cases sorted with
    | nil => simp at hh
    | cons x t =>
        cases t with
        | nil =>
            rw [List.head?_cons, Option.some_inj] at hh
            have hl' : x = pₙ := by
              rw [show ([x] : List Pt).getLast? = some x from rfl, Option.some_inj] at hl
              exact hl
            refine absurd ⟨?_, ?_⟩ hne <;> rw [← hh, ← hl']
        | cons y t2 =>
            rw [List.length_cons, List.length_cons]
            omega
  have hL2 : 2 ≤ (buildChain sorted).length := buildChain_length sorted hlen2
  have hU2 : 2 ≤ (buildChain sorted.reverse).length :=
    buildChain_length _ (by rw [List.length_reverse]; omega)
  have hLF2 : 2 ≤ (buildChain sorted).reverse.length := by
    rw [List.length_reverse]
    exact hL2
  have hUF2 : 2 ≤ (buildChain sorted.reverse).reverse.length := by
    rw [List.length_reverse]
    exact hU2
  have hUFhead : (buildChain sorted.reverse).reverse.head? = some pₙ := by
    rw [List.head?_reverse, buildChain_getLast?, List.head?_reverse, hl]
  have hLFlast : (buildChain sorted).reverse.getLast? = some pₙ := by
    rw [List.getLast?_reverse, buildChain_head? sorted hsne, hl]
  have hLFhead : (buildChain sorted).reverse.head? = some p₁ := by
    rw [List.head?_reverse, buildChain_getLast?, hh]
  have hUFlast : (buildChain sorted.reverse).reverse.getLast? = some p₁ := by
    rw [List.getLast?_reverse, buildChain_head? sorted.reverse hrne,
      List.getLast?_reverse, hh]
  intro pr hpr w hw hw1 hw2
  obtain ⟨u, v⟩ := pr
  have hw' : w ∈ buildChain sorted ∨ w ∈ buildChain sorted.reverse := by
    rcases List.mem_append.mp hw with h | h
    · exact Or.inl (List.mem_reverse.mp ((List.dropLast_sublist _).subset h))
    · exact Or.inr (List.mem_reverse.mp ((List.dropLast_sublist _).subset h))
  rcases cyclicPairs_two_chains _ _ hLF2 hUF2 (hUFhead.trans hLFlast.symm)
      (hLFhead.trans hUFlast.symm) (u, v) hpr with hprL | hprU
  · have hpairL : (v, u) ∈ (buildChain sorted).zip (buildChain sorted).tail := by
      have := mem_zip_tail_reverse hprL
      rwa [List.reverse_reverse] at this
    exact lower_edge_strict sorted hsorted hh hl hne hpairL hw' hw1 hw2
  · have hpairU : (v, u)
        ∈ (buildChain sorted.reverse).zip (buildChain sorted.reverse).tail := by
      have := mem_zip_tail_reverse hprU
      rwa [List.reverse_reverse] at this
    exact upper_edge_strict sorted hsorted hh hl hne hpairU hw' hw1 hw2

end Stamp

namespace Stamp

/-- The signed line function of the directed edge from `p` to `q`,
evaluated at an arbitrary plane point. -/
def lineF (p q : Pt) (z : ℚ × ℚ) : ℚ :=
  (q.x - p.x) * (z.2 - p.y) - (q.y - p.y) * (z.1 - p.x)

theorem lineF_toVec (p q r : Pt) : lineF p q (toVec r) = hullCross p q r := rfl

theorem lineF_affine (p q : Pt) (P Q : ℚ × ℚ) (s t : ℚ) (hst : s + t = 1) :
    lineF p q (s • P + t • Q) = s * lineF p q P + t * lineF p q Q := by
  have h1 : (s • P + t • Q).1 = s * P.1 + t * Q.1 := rfl
  have h2 : (s • P + t • Q).2 = s * P.2 + t * Q.2 := rfl
  simp only [lineF, h1, h2]
  have ht : t = 1 - s := by linarith
  rw [ht]
  ring

theorem mem_cyclicPairs_mem {l : List Pt} {pr : Pt × Pt} (h : pr ∈ cyclicPairs l) :
    pr.1 ∈ l ∧ pr.2 ∈ l := by
  obtain ⟨a, b⟩ := pr
  have h2 := List.of_mem_zip h
  exact ⟨h2.1, (List.mem_rotate).mp h2.2⟩

theorem mem_cyclicPairs_sublist {l : List Pt} {pr : Pt × Pt} (h : pr ∈ cyclicPairs l)
    (hlen : 2 ≤ l.length) : [pr.1, pr.2].Sublist l ∨ [pr.2, pr.1].Sublist l := by
  obtain ⟨a, b⟩ := pr
  obtain ⟨x, xs, rfl⟩ := List.exists_cons_of_ne_nil
    (show l ≠ [] by intro he; rw [he] at hlen; simp at hlen)
  have hxs : xs ≠ [] := by
    intro he
    rw [he] at hlen
    simp at hlen
  obtain ⟨l₀', m, hxs'⟩ := exists_concat_of_ne_nil xs hxs
  rw [cyclicPairs, List.rotate_cons_succ, List.rotate_zero, hxs'] at h
  have hshift := zip_shift m x (x :: l₀')
  have h' : (a, b) ∈ ((x :: l₀') ++ [m]).zip (((x :: l₀') ++ [m]).tail) ++ [(m, x)] := by
    rw [← hshift]
    exact h
  rcases List.mem_append.mp h' with hadj | hlast
  · refine Or.inl ?_
    rw [hxs']
    exact pair_sublist_of_mem_zip hadj
  · rw [List.mem_singleton, Prod.mk.injEq] at hlast
    obtain ⟨rfl, rfl⟩ := hlast
    refine Or.inr ?_
    rw [hxs']
    exact List.Sublist.cons₂ b (List.singleton_sublist.mpr (by simp))

theorem edge_endpoints_coordNe {l : List Pt} (hpw : l.Pairwise coordNe)
    (hlen : 2 ≤ l.length) {pr : Pt × Pt} (h : pr ∈ cyclicPairs l) :
    coordNe pr.1 pr.2 := by
  rcases mem_cyclicPairs_sublist h hlen with hs | hs
  · exact List.pairwise_iff_forall_sublist.mp hpw hs
  · exact coordNe_symm (List.pairwise_iff_forall_sublist.mp hpw hs)

/-- A simple polygon: when there are at least three vertices, the
vertices are pairwise (coordinate-)distinct and two distinct cyclic
edges meet only in points that are endpoints of both. -/
def SimplePolygon (l : List Pt) : Prop :=
  3 ≤ l.length →
    l.Pairwise coordNe ∧
    ∀ e₁ ∈ cyclicPairs l, ∀ e₂ ∈ cyclicPairs l, e₁ ≠ e₂ →
      ∀ z ∈ segment ℚ (toVec e₁.1) (toVec e₁.2) ∩ segment ℚ (toVec e₂.1) (toVec e₂.2),
        (z = toVec e₁.1 ∨ z = toVec e₁.2) ∧ (z = toVec e₂.1 ∨ z = toVec e₂.2)

end Stamp

namespace Stamp

/-- A polygon in strict convex position is simple. -/
theorem simplePolygon_of_strictPos (l : List Pt)
    (hpw : l.Pairwise coordNe)
    (hsp : ∀ e ∈ cyclicPairs l, ∀ w ∈ l, w ≠ e.1 → w ≠ e.2 → 0 < hullCross e.1 e.2 w) :
    SimplePolygon l := by
  intro hlen3
  refine ⟨hpw, ?_⟩
  intro e₁ he₁ e₂ he₂ hne z hz
  obtain ⟨a, b⟩ := e₁
  obtain ⟨c, d⟩ := e₂
  obtain ⟨hz₁, hz₂⟩ := hz
  have hmem₁ := mem_cyclicPairs_mem he₁
  have hmem₂ := mem_cyclicPairs_mem he₂
  obtain ⟨s₁, t₁, hs₁, ht₁, hst₁, hz₁e⟩ := hz₁
  obtain ⟨s₂, t₂, hs₂, ht₂, hst₂, hz₂e⟩ := hz₂
  have hf₁z : lineF a b z = 0 := by
    rw [← hz₁e, lineF_affine a b _ _ s₁ t₁ hst₁, lineF_toVec, lineF_toVec,
      hullCross_degen_outer, hullCross_degen_right]
    ring
  have hcomb : s₂ * hullCross a b c + t₂ * hullCross a b d = 0 := by
    rw [← lineF_toVec, ← lineF_toVec, ← lineF_affine a b _ _ s₂ t₂ hst₂, hz₂e, hf₁z]
  have hC : c = a ∨ c = b ∨ 0 < hullCross a b c := by
    by_cases h1 : c = a
    · exact Or.inl h1
    by_cases h2 : c = b
    · exact Or.inr (Or.inl h2)
    · exact Or.inr (Or.inr (hsp (a, b) he₁ c hmem₂.1 h1 h2))
  have hD : d = a ∨ d = b ∨ 0 < hullCross a b d := by
    by_cases h1 : d = a
    · exact Or.inl h1
    by_cases h2 : d = b
    · exact Or.inr (Or.inl h2)
    · exact Or.inr (Or.inr (hsp (a, b) he₁ d hmem₂.2 h1 h2))
  have hCge : 0 ≤ hullCross a b c := by
    rcases hC with h | h | h
    · rw [h, hullCross_degen_outer]
    · rw [h, hullCross_degen_right]
    · exact le_of_lt h
  have hDge : 0 ≤ hullCross a b d := by
    rcases hD with h | h | h
    · rw [h, hullCross_degen_outer]
    · rw [h, hullCross_degen_right]
    · exact le_of_lt h
  have hprod₁ : s₂ * hullCross a b c = 0 := by
    nlinarith [mul_nonneg hs₂ hCge, mul_nonneg ht₂ hDge]
  have hprod₂ : t₂ * hullCross a b d = 0 := by
    nlinarith [mul_nonneg hs₂ hCge, mul_nonneg ht₂ hDge]
  by_cases hCz : hullCross a b c = 0
  · by_cases hDz : hullCross a b d = 0
    · -- both endpoints of the second edge on the first edge's line
      have hcab : c = a ∨ c = b := by
        rcases hC with h | h | h
        · exact Or.inl h
        · exact Or.inr h
        · rw [hCz] at h
          exact absurd h (lt_irrefl 0)
      have hdab : d = a ∨ d = b := by
        rcases hD with h | h | h
        · exact Or.inl h
        · exact Or.inr h
        · rw [hDz] at h
          exact absurd h (lt_irrefl 0)
      rcases hcab with rfl | rfl
      · rcases hdab with rfl | rfl
        · exact ((edge_endpoints_coordNe hpw (by omega) he₂) ⟨rfl, rfl⟩).elim
        · exact absurd rfl hne
      · rcases hdab with rfl | rfl
        · obtain ⟨w, hwmem, hwa, hwb⟩ := exists_third hpw hlen3 d c
          have h1 := hsp (d, c) he₁ w hwmem hwa hwb
          have h2 := hsp (c, d) he₂ w hwmem hwb hwa
          rw [hullCross_swap_first] at h2
          linarith
        · exact ((edge_endpoints_coordNe hpw (by omega) he₂) ⟨rfl, rfl⟩).elim
    · -- z is the first endpoint of the second edge
      have ht₂0 : t₂ = 0 := by
        rcases mul_eq_zero.mp hprod₂ with h | h
        · exact h
        · exact absurd h hDz
      have hs₂1 : s₂ = 1 := by linarith
      have hzC : z = toVec c := by
        rw [← hz₂e, ht₂0, hs₂1]
        simp
      have hcab : c = a ∨ c = b := by
        rcases hC with h | h | h
        · exact Or.inl h
        · exact Or.inr h
        · rw [hCz] at h
          exact absurd h (lt_irrefl 0)
      refine ⟨?_, Or.inl hzC⟩
      rcases hcab with rfl | rfl
      · exact Or.inl hzC
      · exact Or.inr hzC
  · have hs₂0 : s₂ = 0 := by
      rcases mul_eq_zero.mp hprod₁ with h | h
      · exact h
      · exact absurd h hCz
    by_cases hDz : hullCross a b d = 0
    · -- z is the second endpoint of the second edge
      have ht₂1 : t₂ = 1 := by linarith
      have hzD : z = toVec d := by
        rw [← hz₂e, hs₂0, ht₂1]
        simp
      have hdab : d = a ∨ d = b := by
        rcases hD with h | h | h
        · exact Or.inl h
        · exact Or.inr h
        · rw [hDz] at h
          exact absurd h (lt_irrefl 0)
      refine ⟨?_, Or.inr hzD⟩
      rcases hdab with rfl | rfl
      · exact Or.inl hzD
      · exact Or.inr hzD
    · -- both strictly to the left: the segments cannot meet at all
      have ht₂0 : t₂ = 0 := by
        rcases mul_eq_zero.mp hprod₂ with h | h
        · exact h
        · exact absurd h hDz
      exact absurd hst₂ (by rw [hs₂0, ht₂0]; norm_num)

end Stamp

namespace Stamp

/-- The hull produced by `convexHull` is a simple polygon. -/
theorem convexHull_simplePolygon (points : List Pt) :
    SimplePolygon (Stamp.convexHull points) := by
  by_cases h3 : points.length < 3
  · rw [Stamp.convexHull, if_pos h3]
    intro hlen3
    omega
  · rw [Stamp.convexHull, if_neg h3]
    show SimplePolygon ((buildChain (points.mergeSort lexLe)).reverse.dropLast
      ++ (buildChain (points.mergeSort lexLe).reverse).reverse.dropLast)
    intro hlen3
    have hsorted := mergeSort_pairwise_lexLeP points
    have hslen : (points.mergeSort lexLe).length = points.length :=
      List.length_mergeSort points
    have hsne : points.mergeSort lexLe ≠ [] := by
      intro h
      rw [h] at hslen
      simp at hslen
      omega
    obtain ⟨p₁, hh⟩ : ∃ p₁, (points.mergeSort lexLe).head? = some p₁ := by
      cases hx : (points.mergeSort lexLe).head? with
      | none =>
          rw [List.head?_eq_none_iff] at hx
          exact absurd hx hsne
      | some p => exact ⟨p, rfl⟩
    obtain ⟨pₙ, hl⟩ : ∃ pₙ, (points.mergeSort lexLe).getLast? = some pₙ := by
      cases hx : (points.mergeSort lexLe).getLast? with
      | none =>
          rw [List.getLast?_eq_none_iff] at hx
          exact absurd hx hsne
      | some p => exact ⟨p, rfl⟩
    have hstack3 : 3 ≤ (buildChain (points.mergeSort lexLe)).length ∨
        3 ≤ (buildChain (points.mergeSort lexLe).reverse).length := by
      rw [List.length_append, List.length_dropLast, List.length_dropLast,
        List.length_reverse, List.length_reverse] at hlen3
      omega
    have hne := first_last_coordNe (points.mergeSort lexLe) hsorted hh hl hstack3
    exact (simplePolygon_of_strictPos _
      (chains_coordNe (points.mergeSort lexLe) hsorted hh hl hne)
      (chains_strictPos (points.mergeSort lexLe) hsorted hh hl hne)) hlen3

end Stamp

/-- C4: For every finite input point set, the convex hull function returns
only points that are members of the input; no input point lies strictly
outside the polygon formed by the returned points (every input point lies in
the rational convex hull of the returned vertices); the returned polygon is
simple (non-self-intersecting); and for inputs of fewer than 3 points the
input sequence is returned unchanged with no hull reduction. -/
theorem convexHull_correct (points : List Stamp.Pt) :
    (∀ q ∈ Stamp.convexHull points, q ∈ points) ∧
    (∀ q ∈ points, Stamp.toVec q ∈ convexHull ℚ
        (Stamp.toVec '' {p | p ∈ Stamp.convexHull points})) ∧
    Stamp.SimplePolygon (Stamp.convexHull points) ∧
    (points.length < 3 → Stamp.convexHull points = points) :=
  ⟨hull_subset_input points, input_subset_convexHull_output points,
    Stamp.convexHull_simplePolygon points,
    fun h => by rw [Stamp.convexHull, if_pos h]⟩
